import Mathlib

/-!
# Verification of the family-tree layout engine

Shallow embedding of the layout computation in
`src/components/FamilyTree.tsx` (the `useMemo` body of the `FamilyTree`
component): index building, root detection, the recursive placer
`layoutMarriage`, the driving loop over root marriages, and the standalone
person pass.  Numbers are embedded as `ℚ` (JS numbers; all arithmetic here
is exact on small rationals), the insertion-ordered JS object
`nodePositions` as an association list with in-place update, and the
mutable recursion state as an explicit state record threaded through the
functions.  The recursion is driven by fuel; fuel sufficiency is proved
separately, which renders the termination claim as a real theorem.
-/

namespace FamilyTreeSpec

/-- Partial date carried by `IPerson.dob`: `{ year?, month?, day? }`. -/
structure Dob where
  year : Option Int
  month : Option Int
  day : Option Int
deriving DecidableEq, Repr

/-- The fields of `IPerson` that the layout engine reads. -/
structure Person where
  _id : String
  dob : Option Dob
deriving DecidableEq, Repr

/-- The fields of `IMarriage` that the layout engine reads.  A missing
`children` array behaves exactly like an empty one (`m.children?.forEach`
and `m.children ?? []` in the source), so it is embedded as a list. -/
structure Marriage where
  _id : String
  spouses : List String
  children : List String
deriving DecidableEq, Repr

/-- A 2-D position, `type Position = { x: number; y: number }`. -/
structure Pos where
  x : ℚ
  y : ℚ
deriving DecidableEq, Repr

/-- Payload of an emitted react-flow node: the source pushes nodes of type
`"person"` (`data: { person }`), `"marriedPerson"`
(`data: { spouses, marriage }`) and `"marriage"` (`data: { marriage }`). -/
inductive NodePayload where
  | person (p : Person)
  | marriedPerson (spouses : List Person) (m : Marriage)
  | marriage (m : Marriage)
deriving DecidableEq, Repr

/-- An emitted node: id, payload and position. -/
structure Node where
  id : String
  payload : NodePayload
  position : Pos
deriving DecidableEq, Repr

/-- An emitted edge (style is not modelled, `animated` is). -/
structure Edge where
  id : String
  source : String
  target : String
  animated : Bool
deriving DecidableEq, Repr

/-- The mutable state of the layout computation: `nodePositions` (a JS
object, i.e. an insertion-ordered map), the `nodes` and `edges` output
arrays, and the `visitedMarriages` set. -/
structure LState where
  positions : List (String × Pos)
  nodes : List Node
  edges : List Edge
  visited : List String
deriving DecidableEq, Repr

/-- `const hSpacing = 160`. -/
def hSpacing : ℚ := 160

/-- `const vSpacing = 80`. -/
def vSpacing : ℚ := 80

/-- `marriageMap = Object.fromEntries(marriages.map((m) => [m._id, m]))`:
lookup keeps the last entry for a duplicated key. -/
def marriageMap (ms : List Marriage) (mid : String) : Option Marriage :=
  ms.reverse.find? (fun m => m._id == mid)

/-- `spouseToMarriageIds`: for each marriage in list order, for each of its
spouse entries equal to `pid`, the marriage id is appended. -/
def spouseMarriageIds (ms : List Marriage) (pid : String) : List String :=
  (ms.map (fun m => (m.spouses.filter (fun s => s == pid)).map (fun _ => m._id))).flatten

/-- Root detection flag: marriage id `mid` is marked as having a parent
iff some marriage `mp` lists a child `c` that is not one of `mp`'s own
spouses (the explicit skip in the source) and `c` is a spouse of a
marriage with id `mid`. -/
def marriageHasParent (ms : List Marriage) (mid : String) : Bool :=
  ms.any (fun mp => mp.children.any (fun c =>
    !(mp.spouses.contains c) && (spouseMarriageIds ms c).contains mid))

/-- `rootMarriages = marriages.filter((m) => !marriageHasParent.get(m._id))`. -/
def rootMarriages (ms : List Marriage) : List Marriage :=
  ms.filter (fun m => !(marriageHasParent ms m._id))

/-- `dobToDate` on a `Dob` record: `if (!p?.dob?.year) return null` (a
missing year and the falsy year `0` both yield `null`), otherwise
`new Date(dob.year, (dob.month ?? 1) - 1, dob.day ?? 1)`.  The `Date` is
embedded as an integer key that is order-isomorphic to `Date.getTime()`
for calendar-valid month/day fields; per the `Date(y, m, d)` constructor a
year between 0 and 99 is offset by 1900. -/
def dobKey (d : Dob) : Option Int :=
  match d.year with
  | none => none
  | some y =>
    if y = 0 then none
    else
      let eff : Int := if 0 ≤ y ∧ y ≤ 99 then y + 1900 else y
      some (eff * 10000 + d.month.getD 1 * 100 + d.day.getD 1)

/-- `dobToDate(p?: IPerson)`. -/
def dobToDate (p : Option Person) : Option Int :=
  match p with
  | none => none
  | some q =>
    match q.dob with
    | none => none
    | some d => dobKey d

/-- The comparator passed to `children.sort`: both dates missing → `0`,
`a` missing → `1`, `b` missing → `-1`, otherwise
`da.getTime() - db.getTime()`. -/
def childCompare (ps : List Person) (a b : String) : Int :=
  let pa := ps.find? (fun p => p._id == a)
  let pb := ps.find? (fun p => p._id == b)
  match dobToDate pa, dobToDate pb with
  | none, none => 0
  | none, some _ => 1
  | some _, none => -1
  | some ta, some tb => ta - tb

/-- The non-strict order induced by the comparator (`a` may stay before
`b` iff the comparator is `≤ 0`). -/
def childLE (ps : List Person) (a b : String) : Prop :=
  childCompare ps a b ≤ 0

instance (ps : List Person) : DecidableRel (childLE ps) :=
  fun a b => inferInstanceAs (Decidable (childCompare ps a b ≤ 0))

/-- `[...(m.children ?? [])].sort(comparator)`.  ECMAScript `sort` with a
consistent comparator produces the unique stable reordering that is sorted
with respect to the comparator; `List.insertionSort` by the comparator's
non-strict order is exactly that reordering. -/
def sortedChildren (ps : List Person) (children : List String) : List String :=
  List.insertionSort (childLE ps) children

/-- JS object assignment `nodePositions[k] = v`: replace in place when the
key is present, append otherwise. -/
def upsert (l : List (String × Pos)) (k : String) (v : Pos) : List (String × Pos) :=
  if l.any (fun kv => kv.1 == k) then
    l.map (fun kv => if kv.1 == k then (k, v) else kv)
  else l ++ [(k, v)]

/-- JS object read `nodePositions[k]`. -/
def lookupPos (l : List (String × Pos)) (k : String) : Option Pos :=
  (l.find? (fun kv => kv.1 == k)).map (fun kv => kv.2)

/-- `m.spouses.map(id => persons.find(p => p._id === id)).filter(p => !!p)`. -/
def resolvedSpouses (ps : List Person) (m : Marriage) : List Person :=
  m.spouses.filterMap (fun sid => ps.find? (fun p => p._id == sid))

/-- `const spouseNodeId = ` backtick-`spouses-${m._id}`. -/
def spouseNodeId (m : Marriage) : String := "spouses-" ++ m._id

/-- `const marriageNodeId = ` backtick-`marriage-${m._id}`. -/
def marriageNodeId (m : Marriage) : String := "marriage-" ++ m._id

/-- The static spouse-pair → marriage edge pushed for every laid-out
marriage (`animated: false`). -/
def unionEdge (m : Marriage) : Edge :=
  ⟨spouseNodeId m ++ "-" ++ marriageNodeId m, spouseNodeId m, marriageNodeId m, false⟩

/-- One descent edge `marriage → child` (`animated: true`).  The target is
the child's spouse-pair node for the first marriage id of the child that
resolves in `marriageMap`, else the bare child id. -/
def childEdge (ms : List Marriage) (m : Marriage) (cid : String) : Edge :=
  let cmids := spouseMarriageIds ms cid
  let target :=
    match cmids.find? (fun mid2 => (marriageMap ms mid2).isSome) with
    | some cm => "spouses-" ++ cm
    | none => cid
  ⟨marriageNodeId m ++ "-" ++ target, marriageNodeId m, target, true⟩

/-- Result of one `layoutMarriage` call: `centerX`, `nextX`, the updated
state, and (as instrumentation) the list of `nodePositions` writes the
call performed, in order. -/
abbrev LMResult := ℚ × ℚ × LState × List (String × Pos)

/-- The `sortedChildren.forEach` loop of `layoutMarriage`: thread the
horizontal cursor, collect `childCenters`, recurse (via `lm`) into the
first unvisited marriage of a child, else place the child as a leaf at
`(cursor, (depth+1)*vSpacing)` and advance the cursor by `hSpacing`. -/
def layoutChildren (ms : List Marriage)
    (lm : String → ℚ → ℚ → LState → Option LMResult) (d : ℚ) :
    List String → ℚ → LState → Option (List ℚ × ℚ × LState × List (String × Pos))
  | [], cur, st => some ([], cur, st, [])
  | cid :: rest, cur, st =>
    match (spouseMarriageIds ms cid).find? (fun mid2 => !(st.visited.contains mid2)) with
    | some cmid =>
      match lm cmid (d + 2) cur st with
      | none => none
      | some (cC, nX, st', w1) =>
        match layoutChildren ms lm d rest nX st' with
        | none => none
        | some (cs, cur', st'', w2) => some (cC :: cs, cur', st'', w1 ++ w2)
    | none =>
      let pos : Pos := ⟨cur, (d + 1) * vSpacing⟩
      match layoutChildren ms lm d rest (cur + hSpacing)
          { st with positions := upsert st.positions cid pos } with
      | none => none
      | some (cs, cur', st'', w2) => some (cur :: cs, cur', st'', (cid, pos) :: w2)

/-- The `centerX` computation of `layoutMarriage`: `currentX` when there
were no children, otherwise the midpoint of `Math.min(...childCenters)`
and `Math.max(...childCenters)`. -/
def centerCalc (cur : ℚ) (centers : List ℚ) : ℚ :=
  match centers with
  | [] => cur
  | c0 :: cs => (cs.foldl min c0 + cs.foldl max c0) / 2

/-- The body of `layoutMarriage(marriageId, depth, xOffset)` with the
recursive self passed as `lm`: guard on unknown/visited id, mark visited,
lay out sorted children, compute `centerX` (midpoint of min/max child
centers, else the cursor), place the spouse-pair node at
`(centerX, (depth-1)*vSpacing)` and the marriage node at
`(centerX, depth*vSpacing + 5)`, push both nodes, push the union edge and
one descent edge per listed child, and return
`(centerX, max(cursor, centerX + hSpacing))`. -/
def layoutMarriageStep (ps : List Person) (ms : List Marriage)
    (lm : String → ℚ → ℚ → LState → Option LMResult)
    (mid : String) (d x0 : ℚ) (st : LState) : Option LMResult :=
  match marriageMap ms mid with
  | none => some (x0, x0 + hSpacing, st, [])
  | some m =>
    if st.visited.contains mid then some (x0, x0 + hSpacing, st, [])
    else
      let st1 : LState := { st with visited := st.visited ++ [mid] }
      match layoutChildren ms lm d (sortedChildren ps m.children) x0 st1 with
      | none => none
      | some (centers, cur, st2, wc) =>
        let centerX : ℚ := centerCalc cur centers
        let pS : Pos := ⟨centerX, (d - 1) * vSpacing⟩
        let pM : Pos := ⟨centerX, d * vSpacing + 5⟩
        let st3 : LState :=
          { st2 with
            positions := upsert (upsert st2.positions (spouseNodeId m) pS) (marriageNodeId m) pM
            nodes := st2.nodes ++
              [⟨spouseNodeId m, NodePayload.marriedPerson (resolvedSpouses ps m) m, pS⟩,
               ⟨marriageNodeId m, NodePayload.marriage m, pM⟩]
            edges := st2.edges ++ unionEdge m :: m.children.map (childEdge ms m) }
        some (centerX, max cur (centerX + hSpacing), st3,
          wc ++ [(spouseNodeId m, pS), (marriageNodeId m, pM)])

/-- `layoutMarriage`, driven by fuel so that the embedding is executable;
fuel sufficiency is proved below. -/
def layoutMarriage (ps : List Person) (ms : List Marriage) :
    Nat → String → ℚ → ℚ → LState → Option LMResult
  | 0 => fun _ _ _ _ => none
  | fuel + 1 => layoutMarriageStep ps ms (layoutMarriage ps ms fuel)

/-- The driving loop over root marriages: each root is laid out at
`depth = 1` starting at the global cursor, which then advances to
`nextX + hSpacing`.  Also returns, per root, the list of position writes
performed by that root's call. -/
def layoutRoots (ps : List Person) (ms : List Marriage) (fuel : Nat) :
    List Marriage → ℚ → LState → Option (LState × List (List (String × Pos)))
  | [], _, st => some (st, [])
  | rm :: rest, g, st =>
    match layoutMarriage ps ms fuel rm._id 1 g st with
    | none => none
    | some (_, nX, st', w) =>
      match layoutRoots ps ms fuel rest (nX + hSpacing) st' with
      | none => none
      | some (stF, ws) => some (stF, w :: ws)

/-- The fresh state at the start of every layout computation. -/
def initialState : LState := ⟨[], [], [], []⟩

/-- The recursive pass: lay out all root marriages left to right. -/
def familyTreeTrace (ps : List Person) (ms : List Marriage) :
    Option (LState × List (List (String × Pos))) :=
  layoutRoots ps ms (ms.length + 1) (rootMarriages ms) 0 initialState

/-- `marriages.some(m => m.spouses.includes(p._id))`. -/
def isSpouseAny (ms : List Marriage) (pid : String) : Bool :=
  ms.any (fun m => m.spouses.contains pid)

/-- The standalone person pass: for each person in list order, skip it if
it is a spouse in any marriage, otherwise push a `"person"` node at the
recorded position, defaulting to `{ x: 0, y: 0 }`. -/
def standaloneNodes (ps : List Person) (ms : List Marriage) (st : LState) : List Node :=
  ps.filterMap (fun p =>
    if isSpouseAny ms p._id then none
    else some ⟨p._id, NodePayload.person p, (lookupPos st.positions p._id).getD ⟨0, 0⟩⟩)

/-- The whole layout computation: recursive pass over roots, then the
standalone person pass appended to the node list. -/
def familyTree (ps : List Person) (ms : List Marriage) :
    Option (List Node × List Edge) :=
  match familyTreeTrace ps ms with
  | none => none
  | some (st, _) => some (st.nodes ++ standaloneNodes ps ms st, st.edges)

/-! ## Helper lemmas: the child comparator as a key order -/

/-- The sort key of a child id: the `Date` key of the first person record
with that id, if any. -/
def keyOf (ps : List Person) (c : String) : Option Int :=
  dobToDate (ps.find? (fun p => p._id == c))

/-- A missing date sorts after every present date: embed into `WithTop ℤ`. -/
def toTop : Option Int → WithTop Int
  | none => ⊤
  | some x => (x : WithTop Int)

theorem childCompare_eq_keys (ps : List Person) (a b : String) :
    childCompare ps a b =
      (match keyOf ps a, keyOf ps b with
        | none, none => 0
        | none, some _ => 1
        | some _, none => -1
        | some ta, some tb => ta - tb : Int) := by
  simp only [childCompare, keyOf]

theorem childLE_iff (ps : List Person) (a b : String) :
    childLE ps a b ↔ toTop (keyOf ps a) ≤ toTop (keyOf ps b) := by
  unfold childLE
  rw [childCompare_eq_keys]
  cases ha : keyOf ps a with
  | none =>
    cases hb : keyOf ps b with
    | none => simp [toTop]
    | some tb =>
      simp only [toTop]
      constructor
      · intro h; exact absurd h (by decide)
      · intro h; exact absurd (top_le_iff.mp h) (WithTop.coe_ne_top)
  | some ta =>
    cases hb : keyOf ps b with
    | none =>
      simp only [toTop, le_top, iff_true]
      decide
    | some tb =>
      simp only [toTop, WithTop.coe_le_coe]
      omega

instance childLE_total (ps : List Person) : IsTotal String (childLE ps) :=
  ⟨fun a b => by
    rw [childLE_iff, childLE_iff]
    exact le_total _ _⟩

instance childLE_trans (ps : List Person) : IsTrans String (childLE ps) :=
  ⟨fun a b c hab hbc => by
    rw [childLE_iff] at *
    exact le_trans hab hbc⟩

theorem not_childLE_key_ne (ps : List Person) (a b : String)
    (h : ¬ childLE ps a b) : keyOf ps a ≠ keyOf ps b := by
  rw [childLE_iff, not_le] at h
  intro he
  rw [he] at h
  exact lt_irrefl _ h

/-- Filtering a key class commutes with `orderedInsert` whenever the
elements the insertion skips have a strictly different key. -/
theorem filter_orderedInsert_key {α β : Type} [DecidableEq β]
    (r : α → α → Prop) [DecidableRel r] (key : α → β)
    (hr : ∀ x y, ¬ r x y → key x ≠ key y) (k : β) (a : α) :
    ∀ l : List α,
      (List.orderedInsert r a l).filter (fun x => decide (key x = k)) =
        if key a = k then a :: l.filter (fun x => decide (key x = k))
        else l.filter (fun x => decide (key x = k))
  | [] => by
    by_cases hak : key a = k <;>
      simp [List.orderedInsert, List.filter_cons, hak]
  | b :: t => by
    by_cases hab : r a b
    · by_cases hak : key a = k <;>
        simp [List.orderedInsert, hab, List.filter_cons, hak]
    · have hne : key a ≠ key b := hr a b hab
      have ih := filter_orderedInsert_key r key hr k a t
      by_cases hak : key a = k
      · have hbk : key b ≠ k := fun h => hne (hak.trans h.symm)
        simp [List.orderedInsert, hab, List.filter_cons, ih, hak, hbk]
      · by_cases hbk : key b = k <;>
          simp [List.orderedInsert, hab, List.filter_cons, ih, hak, hbk]

/-- Stability of `insertionSort` with respect to a key: each key class
keeps its input order. -/
theorem filter_insertionSort_key {α β : Type} [DecidableEq β]
    (r : α → α → Prop) [DecidableRel r] (key : α → β)
    (hr : ∀ x y, ¬ r x y → key x ≠ key y) (k : β) :
    ∀ l : List α,
      (List.insertionSort r l).filter (fun x => decide (key x = k)) =
        l.filter (fun x => decide (key x = k))
  | [] => rfl
  | a :: t => by
    simp only [List.insertionSort]
    rw [filter_orderedInsert_key r key hr k a (List.insertionSort r t),
      filter_insertionSort_key r key hr k t]
    by_cases hak : key a = k <;> simp [hak]

/-! ## C4: deterministic child ordering -/

/-- Persons for the concrete ordering scenario in the claim: dob years
`[1995, 1990, undefined, 1992]`. -/
def c4persons : List Person :=
  [⟨"c1995", some ⟨some 1995, none, none⟩⟩,
   ⟨"c1990", some ⟨some 1990, none, none⟩⟩,
   ⟨"cNone", none⟩,
   ⟨"c1992", some ⟨some 1992, none, none⟩⟩]

/-- C4: `layoutMarriage` processes children in the order produced by
`sortedChildren`, which (1) is a permutation of the input `children`,
(2) is sorted by birth date ascending with any child lacking a date after
all dated children, (3) is stable — children whose comparison is a tie
(equal date key, in particular both dateless) keep their relative input
order — and (4) on dob years `[1995, 1990, undefined, 1992]` yields
`[1990, 1992, 1995, undefined]`. -/
theorem C4_children_sorted_stably (ps : List Person) (children : List String) :
    (sortedChildren ps children).Perm children
    ∧ List.Sorted (fun a b => toTop (keyOf ps a) ≤ toTop (keyOf ps b))
        (sortedChildren ps children)
    ∧ (∀ k : Option Int,
        (sortedChildren ps children).filter (fun c => decide (keyOf ps c = k))
          = children.filter (fun c => decide (keyOf ps c = k)))
    ∧ sortedChildren c4persons ["c1995", "c1990", "cNone", "c1992"]
        = ["c1990", "c1992", "c1995", "cNone"] := by
  refine ⟨List.perm_insertionSort _ _, ?_, ?_, by decide⟩
  · have h := List.sorted_insertionSort (childLE ps) children
    exact h.imp (fun {a b} hab => (childLE_iff ps a b).mp hab)
  · intro k
    exact filter_insertionSort_key (childLE ps) (keyOf ps)
      (not_childLE_key_ne ps) k children

/-! ## C10: date-key semantics of `dobToDate` -/

/-- C10 counterexample: (i) a dob with year `0` (a present year field) is
treated as no date at all because `!p?.dob?.year` is a JS falsy test, and
(ii) a year between 1 and 99 is offset by 1900 by the `Date(y, m, d)`
constructor, so a child born in year 50 sorts *after* a child born in
year 1000 — both contradict "compared as January 1 of that year". -/
theorem C10_cex :
    dobToDate (some ⟨"z", some ⟨some 0, some 5, some 7⟩⟩) = none
    ∧ childCompare
        [⟨"a", some ⟨some 50, none, none⟩⟩, ⟨"b", some ⟨some 1000, none, none⟩⟩]
        "a" "b" > 0
    ∧ sortedChildren
        [⟨"a", some ⟨some 50, none, none⟩⟩, ⟨"b", some ⟨some 1000, none, none⟩⟩]
        ["a", "b"] = ["b", "a"] := by
  refine ⟨rfl, by decide, by decide⟩

/-- C10 amended: a dob whose year is missing — or `0`, which the falsy
test `!p?.dob?.year` also rejects — is treated as no birth date even when
month or day are present; a dob with a nonzero year is keyed with missing
month defaulting to 1 and missing day defaulting to 1 (January 1), with
years 1–99 offset by 1900 (JS `Date` two-digit-year rule). -/
theorem C10_amended :
    (∀ d : Dob, d.year = none → dobKey d = none)
    ∧ (∀ mo da : Option Int, dobKey ⟨some 0, mo, da⟩ = none)
    ∧ (∀ (y : Int) (da : Option Int), y ≠ 0 →
        dobKey ⟨some y, none, da⟩ = dobKey ⟨some y, some 1, da⟩)
    ∧ (∀ (y : Int) (mo : Option Int), y ≠ 0 →
        dobKey ⟨some y, mo, none⟩ = dobKey ⟨some y, mo, some 1⟩)
    ∧ (∀ (y : Int) (mo da : Option Int), 1 ≤ y → y ≤ 99 →
        dobKey ⟨some y, mo, da⟩ = dobKey ⟨some (y + 1900), mo, da⟩) := by
  refine ⟨?_, ?_, ?_, ?_, ?_⟩
  · intro d hd; simp [dobKey, hd]
  · intro mo da; simp [dobKey]
  · intro y da hy; simp [dobKey, hy]
  · intro y mo hy; simp [dobKey, hy]
  · intro y mo da h1 h99
    have hy : ¬ y = 0 := by omega
    have hy' : ¬ y + 1900 = 0 := by omega
    simp only [dobKey, if_neg hy, if_neg hy']
    have e1 : (if 0 ≤ y ∧ y ≤ 99 then y + 1900 else y) = y + 1900 :=
      if_pos (by omega)
    have e2 : (if 0 ≤ y + 1900 ∧ y + 1900 ≤ 99 then y + 1900 + 1900 else y + 1900)
        = y + 1900 := if_neg (by omega)
    rw [e1, e2]

/-- Witness for C10: the amended statement applied at year 1990 with no
month, and at the two-digit year 50. -/
theorem C10_witness :
    dobKey ⟨some 1990, none, some 4⟩ = dobKey ⟨some 1990, some 1, some 4⟩
    ∧ dobKey ⟨some 50, some 2, some 3⟩ = dobKey ⟨some 1950, some 2, some 3⟩ :=
  ⟨C10_amended.2.2.1 1990 (some 4) (by decide),
   C10_amended.2.2.2.2 50 (some 2) (some 3) (by decide) (by decide)⟩

/-! ## C3: root detection -/

theorem mem_spouseMarriageIds (ms : List Marriage) (c mid : String) :
    mid ∈ spouseMarriageIds ms c ↔ ∃ mm ∈ ms, c ∈ mm.spouses ∧ mm._id = mid := by
  unfold spouseMarriageIds
  simp only [List.mem_flatten, List.mem_map]
  constructor
  · rintro ⟨l, ⟨mm, hmm, rfl⟩, hmid⟩
    rcases List.mem_map.mp hmid with ⟨s, hs, rfl⟩
    rcases List.mem_filter.mp hs with ⟨hsp, hsc⟩
    have hsc' : s = c := by simpa using hsc
    subst hsc'
    exact ⟨mm, hmm, hsp, rfl⟩
  · rintro ⟨mm, hmm, hc, rfl⟩
    exact ⟨_, ⟨mm, hmm, rfl⟩,
      List.mem_map.mpr ⟨c, List.mem_filter.mpr ⟨hc, by simp⟩, rfl⟩⟩

theorem marriageHasParent_iff (ms : List Marriage) (mid : String) :
    marriageHasParent ms mid = true ↔
      ∃ mp ∈ ms, ∃ c ∈ mp.children, c ∉ mp.spouses
        ∧ ∃ mm ∈ ms, c ∈ mm.spouses ∧ mm._id = mid := by
  unfold marriageHasParent
  simp only [List.any_eq_true, Bool.and_eq_true, Bool.not_eq_true',
    List.elem_eq_mem, decide_eq_true_eq, decide_eq_false_iff_not]
  constructor
  · rintro ⟨mp, hmp, c, hc, hns, hcon⟩
    exact ⟨mp, hmp, c, hc, hns, (mem_spouseMarriageIds ms c mid).mp hcon⟩
  · rintro ⟨mp, hmp, c, hc, hns, hex⟩
    exact ⟨mp, hmp, c, hc, hns, (mem_spouseMarriageIds ms c mid).mpr hex⟩

/-- C3: with distinct marriage ids, a marriage is a root exactly when no
spouse of it occurs in another marriage's children set, where a child
entry equal to one of the listing marriage's own spouses is ignored. -/
theorem C3_root_detection (ms : List Marriage)
    (hids : (ms.map (fun m => m._id)).Nodup) (m : Marriage) :
    m ∈ rootMarriages ms ↔
      m ∈ ms ∧
        ¬ ∃ mp ∈ ms, mp ≠ m ∧ ∃ c ∈ mp.children, c ∉ mp.spouses ∧ c ∈ m.spouses := by
  have hinj : ∀ a ∈ ms, ∀ b ∈ ms, a._id = b._id → a = b := by
    intro a ha b hb hab
    exact List.inj_on_of_nodup_map hids ha hb hab
  unfold rootMarriages
  rw [List.mem_filter]
  simp only [Bool.not_eq_true', Bool.not_eq_true]
  constructor
  · rintro ⟨hm, hpar⟩
    refine ⟨hm, ?_⟩
    rintro ⟨mp, hmp, _, c, hc, hns, hcs⟩
    have : marriageHasParent ms m._id = true :=
      (marriageHasParent_iff ms m._id).mpr ⟨mp, hmp, c, hc, hns, m, hm, hcs, rfl⟩
    rw [hpar] at this
    exact Bool.false_ne_true this
  · rintro ⟨hm, hno⟩
    refine ⟨hm, ?_⟩
    by_contra hpar
    rw [Bool.not_eq_false] at hpar
    rcases (marriageHasParent_iff ms m._id).mp hpar with
      ⟨mp, hmp, c, hc, hns, mm, hmm, hcs, hid⟩
    have hmme : mm = m := hinj mm hmm m hm hid
    subst hmme
    have hne : mp ≠ mm := by
      rintro rfl
      exact hns hcs
    exact hno ⟨mp, hmp, hne, c, hc, hns, hcs⟩

/-- Scenario input for C3: `m1(spouses p1,p2, children [p3])`,
`m2(spouses p3,p4)`. -/
def c3m1 : Marriage := ⟨"m1", ["p1", "p2"], ["p3"]⟩

def c3m2 : Marriage := ⟨"m2", ["p3", "p4"], []⟩

/-- Witness for C3: on the scenario input, `m1` is a root and `m2` is not. -/
theorem C3_witness :
    c3m1 ∈ rootMarriages [c3m1, c3m2] ∧ c3m2 ∉ rootMarriages [c3m1, c3m2] := by
  constructor
  · refine (C3_root_detection [c3m1, c3m2] (by decide) c3m1).mpr ⟨by decide, ?_⟩
    rintro ⟨mp, hmp, hne, c, hc, hns, hcs⟩
    have hm : mp = c3m1 ∨ mp = c3m2 := by simpa using hmp
    rcases hm with rfl | rfl
    · have hc' : c = "p3" := by simpa [c3m1] using hc
      subst hc'
      exact absurd hcs (by decide)
    · exact absurd hc (by simp [c3m2])
  · intro hmem
    rcases (C3_root_detection [c3m1, c3m2] (by decide) c3m2).mp hmem with ⟨_, hno⟩
    exact hno ⟨c3m1, by decide, by decide, "p3", by decide, by decide, by decide⟩

/-! ## C2: placement of persons the recursive pass never positioned -/

/-- C2 amended: the current component has no fallback row.  A person who
is not a spouse in any marriage and received no position from the
recursive pass is emitted by the standalone pass at `(0, 0)` (the
`?? { x: 0, y: 0 }` default) — `y = 0` as claimed, but `x` is `0` rather
than `max(assigned x) + hSpacing`. -/
theorem C2_no_fallback_row (ps : List Person) (ms : List Marriage)
    (st : LState) (ws : List (List (String × Pos)))
    (h : familyTreeTrace ps ms = some (st, ws)) (p : Person) (hp : p ∈ ps)
    (hns : isSpouseAny ms p._id = false)
    (hpos : lookupPos st.positions p._id = none) :
    familyTree ps ms = some (st.nodes ++ standaloneNodes ps ms st, st.edges)
      ∧ (⟨p._id, NodePayload.person p, ⟨0, 0⟩⟩ : Node)
          ∈ st.nodes ++ standaloneNodes ps ms st := by
  constructor
  · unfold familyTree
    rw [h]
  · refine List.mem_append_right _ ?_
    refine List.mem_filterMap.mpr ⟨p, hp, ?_⟩
    simp [hns, hpos]

/-- Input for the C2/C7 counterexamples: one root marriage
`m1(p1, p2, children [p3])` and an isolated person `p7`. -/
def c2persons : List Person :=
  [⟨"p1", none⟩, ⟨"p2", none⟩, ⟨"p3", none⟩, ⟨"p7", none⟩]

def c2marriages : List Marriage := [⟨"m1", ["p1", "p2"], ["p3"]⟩]

/-- C2 counterexample: on this input the isolated person `p7` is emitted
at `(0, 0)`, while the spouse-pair node of `m1` is also at `x = 0`; so
`p7`'s `x` is neither `max(assigned x) + hSpacing` (which would be `160`)
nor strictly greater than every other assigned `x`. -/
theorem C2_cex :
    (familyTree c2persons c2marriages).map
        (fun out => ((out.1.find? (fun nd => nd.id == "p7")).map Node.position,
          (out.1.find? (fun nd => nd.id == "spouses-m1")).map Node.position))
      = some (some ⟨0, 0⟩, some ⟨0, 0⟩)
    ∧ ¬ ((0 : ℚ) > 0) ∧ (0 : ℚ) ≠ 0 + hSpacing := by
  refine ⟨?_, by norm_num, by norm_num [hSpacing]⟩
  norm_num [familyTree, familyTreeTrace, layoutRoots, layoutMarriage, layoutMarriageStep,
    layoutChildren, rootMarriages, marriageHasParent, spouseMarriageIds, marriageMap,
    sortedChildren, childLE, childCompare, dobToDate, upsert, lookupPos, standaloneNodes,
    isSpouseAny, initialState, c2persons, c2marriages, hSpacing, vSpacing, centerCalc, spouseNodeId,
    marriageNodeId, unionEdge, childEdge, resolvedSpouses, List.insertionSort,
    List.orderedInsert, List.find?, List.filter, List.filterMap, List.contains]
  simp

/-- The final recursive-pass state on the C2 counterexample input,
extracted for the witness. -/
def c2state : LState :=
  ((familyTreeTrace c2persons c2marriages).map (fun r => r.1)).getD initialState

def c2writes : List (List (String × Pos)) :=
  ((familyTreeTrace c2persons c2marriages).map (fun r => r.2)).getD []

/-- Witness for C2: the amended statement applied to `p7` on the concrete
input. -/
theorem C2_witness :
    (⟨"p7", NodePayload.person ⟨"p7", none⟩, ⟨0, 0⟩⟩ : Node)
      ∈ c2state.nodes ++ standaloneNodes c2persons c2marriages c2state :=
  (C2_no_fallback_row c2persons c2marriages c2state c2writes rfl
    ⟨"p7", none⟩ (by decide) (by decide) (by rfl)).2

/-! ## Termination infrastructure: fuel adequacy -/

/-- Number of marriage-list entries whose id is not yet visited. -/
def unvisitedCount (ms : List Marriage) (visited : List String) : Nat :=
  (ms.filter (fun m => !(visited.contains m._id))).length

theorem length_filter_mono' {α : Type} (p q : α → Bool)
    (h : ∀ x, q x = true → p x = true) :
    ∀ l : List α, (l.filter q).length ≤ (l.filter p).length
  | [] => le_refl _
  | a :: l => by
    rcases hq : q a with _ | _
    · rcases hp : p a with _ | _ <;>
        simp only [List.filter_cons, hq, hp, Bool.false_eq_true, if_neg, if_pos,
          ite_true, ite_false, List.length_cons]
      · exact length_filter_mono' p q h l
      · exact le_trans (length_filter_mono' p q h l) (Nat.le_succ _)
    · have hp : p a = true := h a hq
      simp only [List.filter_cons, hq, hp, ite_true, List.length_cons]
      exact Nat.succ_le_succ (length_filter_mono' p q h l)

theorem length_filter_strict {α : Type} (p q : α → Bool)
    (h : ∀ x, q x = true → p x = true) (x : α) :
    ∀ l : List α, x ∈ l → p x = true → q x = false →
      (l.filter q).length < (l.filter p).length
  | a :: l, hx, hpx, hqx => by
    rcases List.mem_cons.mp hx with rfl | hx'
    · simp only [List.filter_cons, hpx, hqx, ite_true, Bool.false_eq_true,
        ite_false, List.length_cons]
      exact Nat.lt_succ_of_le (length_filter_mono' p q h l)
    · rcases hq : q a with _ | _
      · rcases hp : p a with _ | _ <;>
          simp only [List.filter_cons, hq, hp, Bool.false_eq_true, ite_true,
            ite_false, List.length_cons]
        · exact length_filter_strict p q h x l hx' hpx hqx
        · exact Nat.lt_succ_of_lt (length_filter_strict p q h x l hx' hpx hqx)
      · have hp : p a = true := h a hq
        simp only [List.filter_cons, hq, hp, ite_true, List.length_cons]
        exact Nat.succ_lt_succ (length_filter_strict p q h x l hx' hpx hqx)

theorem contains_append_false {l e : List String} {s : String}
    (h : ((l ++ e).contains s) = false) : l.contains s = false := by
  simp only [List.elem_eq_mem, decide_eq_false_iff_not, List.mem_append] at h ⊢
  exact fun hm => h (Or.inl hm)

theorem unvisitedCount_append_le (ms : List Marriage) (v e : List String) :
    unvisitedCount ms (v ++ e) ≤ unvisitedCount ms v := by
  refine length_filter_mono' _ _ (fun m hm => ?_) ms
  rw [Bool.not_eq_true'] at hm ⊢
  exact contains_append_false hm

theorem marriageMap_mem {ms : List Marriage} {mid : String} {m : Marriage}
    (h : marriageMap ms mid = some m) : m ∈ ms ∧ m._id = mid := by
  unfold marriageMap at h
  refine ⟨List.mem_reverse.mp (List.mem_of_find?_eq_some h), ?_⟩
  have := List.find?_some h
  simpa using this

theorem unvisitedCount_visit_lt (ms : List Marriage) (v : List String)
    {mid : String} {m : Marriage} (hm : m ∈ ms) (hid : m._id = mid)
    (hnv : v.contains mid = false) :
    unvisitedCount ms (v ++ [mid]) < unvisitedCount ms v := by
  refine length_filter_strict _ _ (fun x hx => ?_) m ms hm ?_ ?_
  · rw [Bool.not_eq_true'] at hx ⊢
    exact contains_append_false hx
  · rw [Bool.not_eq_true', hid]
    exact hnv
  · rw [hid]
    simp [List.elem_eq_mem]

/-- The children loop only ever appends to the visited set, given that the
recursive callee does. -/
theorem layoutChildren_visited_ext (ms : List Marriage)
    (lm : String → ℚ → ℚ → LState → Option LMResult)
    (hlm : ∀ mid dd x st c n st' w, lm mid dd x st = some (c, n, st', w) →
      ∃ e, st'.visited = st.visited ++ e) (d : ℚ) :
    ∀ (kids : List String) (cur : ℚ) (st : LState) cs cur' st' w,
      layoutChildren ms lm d kids cur st = some (cs, cur', st', w) →
      ∃ e, st'.visited = st.visited ++ e
  | [], cur, st, cs, cur', st', w => by
    intro h
    simp only [layoutChildren, Option.some.injEq, Prod.mk.injEq] at h
    exact ⟨[], by rw [← h.2.2.1]; simp⟩
  | cid :: rest, cur, st, cs, cur', st', w => by
    intro h
    simp only [layoutChildren] at h
    cases hfind : (spouseMarriageIds ms cid).find?
        (fun mid2 => !(st.visited.contains mid2)) with
    | some cmid =>
      simp only [hfind] at h
      cases hc : lm cmid (d + 2) cur st with
      | none => simp [hc] at h
      | some r =>
        obtain ⟨c1, n1, st1, w1⟩ := r
        simp only [hc] at h
        cases hr : layoutChildren ms lm d rest n1 st1 with
        | none => simp [hr] at h
        | some r2 =>
          obtain ⟨cs2, cur2, st2, w2⟩ := r2
          simp only [hr, Option.some.injEq, Prod.mk.injEq] at h
          obtain ⟨e1, he1⟩ := hlm cmid (d + 2) cur st c1 n1 st1 w1 hc
          obtain ⟨e2, he2⟩ :=
            layoutChildren_visited_ext ms lm hlm d rest n1 st1 cs2 cur2 st2 w2 hr
          exact ⟨e1 ++ e2, by rw [← h.2.2.1, he2, he1, List.append_assoc]⟩
    | none =>
      simp only [hfind] at h
      cases hr : layoutChildren ms lm d rest (cur + hSpacing)
          { st with positions := upsert st.positions cid ⟨cur, (d + 1) * vSpacing⟩ } with
      | none => simp [hr] at h
      | some r2 =>
        obtain ⟨cs2, cur2, st2, w2⟩ := r2
        simp only [hr, Option.some.injEq, Prod.mk.injEq] at h
        obtain ⟨e2, he2⟩ := layoutChildren_visited_ext ms lm hlm d rest (cur + hSpacing)
          { st with positions := upsert st.positions cid ⟨cur, (d + 1) * vSpacing⟩ }
          cs2 cur2 st2 w2 hr
        exact ⟨e2, by rw [← h.2.2.1, he2]⟩

/-- `layoutMarriage` only ever appends to the visited set. -/
theorem layoutMarriage_visited_ext (ps : List Person) (ms : List Marriage) :
    ∀ (fuel : Nat) (mid : String) (d x0 : ℚ) (st : LState) c n st' w,
      layoutMarriage ps ms fuel mid d x0 st = some (c, n, st', w) →
      ∃ e, st'.visited = st.visited ++ e
  | 0, mid, d, x0, st, c, n, st', w => by
    intro h
    exact absurd h (by simp [layoutMarriage])
  | fuel + 1, mid, d, x0, st, c, n, st', w => by
    intro h
    rw [show layoutMarriage ps ms (fuel + 1)
        = layoutMarriageStep ps ms (layoutMarriage ps ms fuel) from rfl] at h
    unfold layoutMarriageStep at h
    cases hm : marriageMap ms mid with
    | none =>
      simp only [hm, Option.some.injEq, Prod.mk.injEq] at h
      exact ⟨[], by rw [← h.2.2.1]; simp⟩
    | some m =>
      simp only [hm] at h
      by_cases hv : st.visited.contains mid = true
      · rw [if_pos hv] at h
        simp only [Option.some.injEq, Prod.mk.injEq] at h
        exact ⟨[], by rw [← h.2.2.1]; simp⟩
      · rw [if_neg hv] at h
        cases hr : layoutChildren ms (layoutMarriage ps ms fuel) d
            (sortedChildren ps m.children) x0
            { st with visited := st.visited ++ [mid] } with
        | none => simp [hr] at h
        | some r =>
          obtain ⟨centers, cur, st2, wc⟩ := r
          simp only [hr, Option.some.injEq, Prod.mk.injEq] at h
          obtain ⟨e, he⟩ := layoutChildren_visited_ext ms (layoutMarriage ps ms fuel)
            (layoutMarriage_visited_ext ps ms fuel) d
            (sortedChildren ps m.children) x0
            { st with visited := st.visited ++ [mid] } centers cur st2 wc hr
          refine ⟨mid :: e, ?_⟩
          rw [← h.2.2.1]
          show st2.visited = st.visited ++ mid :: e
          rw [he]
          simp

/-- The children loop succeeds whenever the recursive callee succeeds
below the unvisited-count bound. -/
theorem layoutChildren_adequate (ms : List Marriage)
    (lm : String → ℚ → ℚ → LState → Option LMResult)
    (hlmExt : ∀ mid dd x st c n st' w, lm mid dd x st = some (c, n, st', w) →
      ∃ e, st'.visited = st.visited ++ e)
    (fuel : Nat)
    (hlmSome : ∀ mid dd x st, unvisitedCount ms st.visited < fuel →
      (lm mid dd x st).isSome) (d : ℚ) :
    ∀ (kids : List String) (cur : ℚ) (st : LState),
      unvisitedCount ms st.visited < fuel →
      (layoutChildren ms lm d kids cur st).isSome
  | [], cur, st => fun _ => by simp [layoutChildren]
  | cid :: rest, cur, st => fun hlt => by
    simp only [layoutChildren]
    cases hfind : (spouseMarriageIds ms cid).find?
        (fun mid2 => !(st.visited.contains mid2)) with
    | some cmid =>
      have h1 := hlmSome cmid (d + 2) cur st hlt
      cases hc : lm cmid (d + 2) cur st with
      | none => rw [hc] at h1; exact absurd h1 (by simp)
      | some r =>
        obtain ⟨c1, n1, st1, w1⟩ := r
        obtain ⟨e, he⟩ := hlmExt cmid (d + 2) cur st c1 n1 st1 w1 hc
        have hlt1 : unvisitedCount ms st1.visited < fuel := by
          have hle := unvisitedCount_append_le ms st.visited e
          rw [← he] at hle
          omega
        have h2 := layoutChildren_adequate ms lm hlmExt fuel hlmSome d rest n1 st1 hlt1
        cases hr : layoutChildren ms lm d rest n1 st1 with
        | none => rw [hr] at h2; exact absurd h2 (by simp)
        | some r2 =>
          obtain ⟨cs2, cur2, st2, w2⟩ := r2
          simp [hc, hr]
    | none =>
      have h2 := layoutChildren_adequate ms lm hlmExt fuel hlmSome d rest
        (cur + hSpacing)
        { st with positions := upsert st.positions cid ⟨cur, (d + 1) * vSpacing⟩ }
        hlt
      cases hr : layoutChildren ms lm d rest (cur + hSpacing)
          { st with positions := upsert st.positions cid ⟨cur, (d + 1) * vSpacing⟩ } with
      | none => rw [hr] at h2; exact absurd h2 (by simp)
      | some r2 =>
        obtain ⟨cs2, cur2, st2, w2⟩ := r2
        simp [hr]

/-- Fuel adequacy: `layoutMarriage` succeeds whenever the fuel exceeds the
number of yet-unvisited marriage entries. -/
theorem layoutMarriage_adequate (ps : List Person) (ms : List Marriage) :
    ∀ (fuel : Nat) (mid : String) (d x0 : ℚ) (st : LState),
      unvisitedCount ms st.visited < fuel →
      (layoutMarriage ps ms fuel mid d x0 st).isSome
  | 0, mid, d, x0, st => by intro h; omega
  | fuel + 1, mid, d, x0, st => fun hlt => by
    cases hres : layoutMarriage ps ms (fuel + 1) mid d x0 st with
    | some r => simp [hres]
    | none =>
      exfalso
      rw [show layoutMarriage ps ms (fuel + 1)
          = layoutMarriageStep ps ms (layoutMarriage ps ms fuel) from rfl] at hres
      unfold layoutMarriageStep at hres
      cases hm : marriageMap ms mid with
      | none => simp [hm] at hres
      | some m =>
        simp only [hm] at hres
        by_cases hv : st.visited.contains mid = true
        · rw [if_pos hv] at hres
          exact Option.noConfusion hres
        · rw [if_neg hv] at hres
          have hvf : st.visited.contains mid = false := by
            rw [← Bool.not_eq_true]; exact hv
          have hmm := marriageMap_mem hm
          have hlt1 : unvisitedCount ms (st.visited ++ [mid]) < fuel := by
            have := unvisitedCount_visit_lt ms st.visited hmm.1 hmm.2 hvf
            omega
          have hca := layoutChildren_adequate ms (layoutMarriage ps ms fuel)
            (layoutMarriage_visited_ext ps ms fuel) fuel
            (fun mid2 dd x st2 h2 => layoutMarriage_adequate ps ms fuel mid2 dd x st2 h2)
            d (sortedChildren ps m.children) x0
            { st with visited := st.visited ++ [mid] } hlt1
          cases hr : layoutChildren ms (layoutMarriage ps ms fuel) d
              (sortedChildren ps m.children) x0
              { st with visited := st.visited ++ [mid] } with
          | none => rw [hr] at hca; exact absurd hca (by simp)
          | some r =>
            obtain ⟨centers, cur, st2, wc⟩ := r
            simp [hr] at hres


/-- The driving loop over root marriages always succeeds with the fuel
`marriages.length + 1` chosen by `familyTreeTrace`. -/
theorem layoutRoots_total (ps : List Person) (ms : List Marriage) :
    ∀ (roots : List Marriage) (g : ℚ) (st : LState),
      (layoutRoots ps ms (ms.length + 1) roots g st).isSome
  | [], g, st => by simp [layoutRoots]
  | rm :: rest, g, st => by
    simp only [layoutRoots]
    have h1 := layoutMarriage_adequate ps ms (ms.length + 1) rm._id 1 g st (by
      have hle : unvisitedCount ms st.visited ≤ ms.length :=
        List.length_filter_le _ ms
      omega)
    cases hc : layoutMarriage ps ms (ms.length + 1) rm._id 1 g st with
    | none => rw [hc] at h1; exact absurd h1 (by simp)
    | some r =>
      obtain ⟨c, n, st', w⟩ := r
      have h2 := layoutRoots_total ps ms rest (n + hSpacing) st'
      cases hr : layoutRoots ps ms (ms.length + 1) rest (n + hSpacing) st' with
      | none => rw [hr] at h2; exact absurd h2 (by simp)
      | some r2 => simp [hr]

/-! ## C6: cycle-safe termination -/

/-- C6: (i) the layout computation terminates and produces a result on
every input — the fuel `marriages.length + 1` used by the embedding never
runs out, because every recursion step visits a previously unvisited
marriage; (ii) a call on an unknown or already-visited marriage id
returns immediately with the unit-width reservation
`(centerX = xOffset, nextX = xOffset + hSpacing)`, an unchanged state and
no writes, so no marriage is ever recursed into twice. -/
theorem C6_terminates :
    (∀ (ps : List Person) (ms : List Marriage), (familyTree ps ms).isSome = true)
    ∧ (∀ (ps : List Person) (ms : List Marriage) (fuel : Nat) (mid : String)
        (d x0 : ℚ) (st : LState),
        marriageMap ms mid = none ∨ st.visited.contains mid = true →
        layoutMarriage ps ms (fuel + 1) mid d x0 st
          = some (x0, x0 + hSpacing, st, [])) := by
  constructor
  · intro ps ms
    have h := layoutRoots_total ps ms (rootMarriages ms) 0 initialState
    unfold familyTree familyTreeTrace
    cases hr : layoutRoots ps ms (ms.length + 1) (rootMarriages ms) 0 initialState with
    | none => rw [hr] at h; exact absurd h (by simp)
    | some r => obtain ⟨st, ws⟩ := r; simp
  · intro ps ms fuel mid d x0 st h
    show layoutMarriageStep ps ms (layoutMarriage ps ms fuel) mid d x0 st = _
    unfold layoutMarriageStep
    rcases h with h | h
    · rw [h]
    · split
      · rfl
      · rw [if_pos h]

/-- Input with a repeated marriage between the same two spouses and a
marriage listing one of its own spouses as a child. -/
def c6persons : List Person := [⟨"p1", none⟩, ⟨"p2", none⟩]

def c6marriages : List Marriage :=
  [⟨"mA", ["p1", "p2"], []⟩, ⟨"mB", ["p1", "p2"], ["p1"]⟩]

/-- Witness for C6: the cyclic/repeated-marriage input terminates with a
result, and the guard applied to an unknown id and to a visited id. -/
theorem C6_witness :
    (familyTree c6persons c6marriages).isSome = true
    ∧ layoutMarriage c6persons c6marriages 1 "nope" 1 0 initialState
        = some (0, 0 + hSpacing, initialState, [])
    ∧ layoutMarriage c6persons c6marriages 1 "mA" 1 0
        (⟨[], [], [], ["mA"]⟩ : LState)
        = some (0, 0 + hSpacing, ⟨[], [], [], ["mA"]⟩, []) :=
  ⟨C6_terminates.1 c6persons c6marriages,
   C6_terminates.2 c6persons c6marriages 0 "nope" 1 0 initialState
     (Or.inl (by decide)),
   C6_terminates.2 c6persons c6marriages 0 "mA" 1 0 _ (Or.inr (by decide))⟩

/-! ## Horizontal span bounds and the no-overlap property (C5) -/

theorem hSpacing_pos : (0 : ℚ) < hSpacing := by norm_num [hSpacing]

theorem le_foldl_min {b c0 : ℚ} :
    ∀ (cs : List ℚ), b ≤ c0 → (∀ y ∈ cs, b ≤ y) → b ≤ cs.foldl min c0 := by
  intro cs
  induction cs generalizing c0 with
  | nil => intro h0 _; exact h0
  | cons y t ih =>
    intro h0 h
    simp only [List.foldl_cons]
    exact ih (le_min h0 (h y (by simp)))
      (fun z hz => h z (by simp [hz]))

theorem le_foldl_max {b c0 : ℚ} :
    ∀ (cs : List ℚ), b ≤ c0 → b ≤ cs.foldl max c0 := by
  intro cs
  induction cs generalizing c0 with
  | nil => intro h0; exact h0
  | cons y t ih =>
    intro h0
    simp only [List.foldl_cons]
    exact ih (le_trans h0 (le_max_left c0 y))

/-- Every position written by the children loop lies in
`[cursor, nextCursor - hSpacing]`, every collected child center too, the
cursor is monotone, and exactly one center is collected per child. -/
theorem layoutChildren_bounds (ms : List Marriage)
    (lm : String → ℚ → ℚ → LState → Option LMResult)
    (hlm : ∀ mid dd x st c n st' w, lm mid dd x st = some (c, n, st', w) →
      x + hSpacing ≤ n ∧ x ≤ c ∧ c + hSpacing ≤ n ∧
        ∀ kv ∈ w, x ≤ (kv.2).x ∧ (kv.2).x + hSpacing ≤ n) (d : ℚ) :
    ∀ (kids : List String) (cur : ℚ) (st : LState) cs cur' st' w,
      layoutChildren ms lm d kids cur st = some (cs, cur', st', w) →
      cur ≤ cur'
      ∧ (∀ c ∈ cs, cur ≤ c ∧ c + hSpacing ≤ cur')
      ∧ (∀ kv ∈ w, cur ≤ (kv.2).x ∧ (kv.2).x + hSpacing ≤ cur')
      ∧ cs.length = kids.length
  | [], cur, st, cs, cur', st', w => by
    intro h
    simp only [layoutChildren, Option.some.injEq, Prod.mk.injEq] at h
    obtain ⟨h1, h2, _, h4⟩ := h
    subst h1 h2 h4
    exact ⟨le_refl _, by simp, by simp, rfl⟩
  | cid :: rest, cur, st, cs, cur', st', w => by
    intro h
    simp only [layoutChildren] at h
    cases hfind : (spouseMarriageIds ms cid).find?
        (fun mid2 => !(st.visited.contains mid2)) with
    | some cmid =>
      simp only [hfind] at h
      cases hc : lm cmid (d + 2) cur st with
      | none => simp [hc] at h
      | some r =>
        obtain ⟨c1, n1, st1, w1⟩ := r
        simp only [hc] at h
        cases hr : layoutChildren ms lm d rest n1 st1 with
        | none => simp [hr] at h
        | some r2 =>
          obtain ⟨cs2, cur2, st2, w2⟩ := r2
          simp only [hr, Option.some.injEq, Prod.mk.injEq] at h
          obtain ⟨hcs, hcur, _, hw⟩ := h
          subst hcs hcur hw
          obtain ⟨hn1, hc1, hc1n, hw1⟩ := hlm cmid (d + 2) cur st c1 n1 st1 w1 hc
          obtain ⟨hmono, hcents, hwr, hlen⟩ :=
            layoutChildren_bounds ms lm hlm d rest n1 st1 cs2 cur2 st2 w2 hr
          have hcn : cur ≤ n1 := le_trans (by linarith [hSpacing_pos]) hn1
          refine ⟨le_trans hcn hmono, ?_, ?_, by simp [hlen]⟩
          · intro c hcmem
            rcases List.mem_cons.mp hcmem with rfl | hcmem'
            · exact ⟨hc1, le_trans hc1n hmono⟩
            · obtain ⟨ha, hb⟩ := hcents c hcmem'
              exact ⟨le_trans hcn ha, hb⟩
          · intro kv hkv
            rcases List.mem_append.mp hkv with hkv1 | hkv2
            · obtain ⟨ha, hb⟩ := hw1 kv hkv1
              exact ⟨ha, le_trans hb hmono⟩
            · obtain ⟨ha, hb⟩ := hwr kv hkv2
              exact ⟨le_trans hcn ha, hb⟩
    | none =>
      simp only [hfind] at h
      cases hr : layoutChildren ms lm d rest (cur + hSpacing)
          { st with positions := upsert st.positions cid ⟨cur, (d + 1) * vSpacing⟩ } with
      | none => simp [hr] at h
      | some r2 =>
        obtain ⟨cs2, cur2, st2, w2⟩ := r2
        simp only [hr, Option.some.injEq, Prod.mk.injEq] at h
        obtain ⟨hcs, hcur, _, hw⟩ := h
        subst hcs hcur hw
        obtain ⟨hmono, hcents, hwr, hlen⟩ := layoutChildren_bounds ms lm hlm d rest
          (cur + hSpacing)
          { st with positions := upsert st.positions cid ⟨cur, (d + 1) * vSpacing⟩ }
          cs2 cur2 st2 w2 hr
        have hch : cur ≤ cur + hSpacing := by linarith [hSpacing_pos]
        refine ⟨le_trans hch hmono, ?_, ?_, by simp [hlen]⟩
        · intro c hcmem
          rcases List.mem_cons.mp hcmem with rfl | hcmem'
          · exact ⟨le_refl _, hmono⟩
          · obtain ⟨ha, hb⟩ := hcents c hcmem'
            exact ⟨le_trans hch ha, hb⟩
        · intro kv hkv
          rcases List.mem_cons.mp hkv with rfl | hkv2
          · exact ⟨le_refl _, hmono⟩
          · obtain ⟨ha, hb⟩ := hwr kv hkv2
            exact ⟨le_trans hch ha, hb⟩

/-- The computed `centerX` — midpoint of the child centers when there are
any, else the cursor — is at or beyond the starting offset. -/
theorem x0_le_centerCalc (x0 cur : ℚ) (centers : List ℚ)
    (hmono : x0 ≤ cur) (hcents : ∀ c ∈ centers, x0 ≤ c) :
    x0 ≤ centerCalc cur centers := by
  cases centers with
  | nil => exact hmono
  | cons c0 cs =>
    have hx0c0 : x0 ≤ c0 := hcents c0 (by simp)
    have hmn : x0 ≤ cs.foldl min c0 :=
      le_foldl_min cs hx0c0 (fun y hy => hcents y (by simp [hy]))
    have hmx : x0 ≤ cs.foldl max c0 := le_foldl_max cs hx0c0
    simp only [centerCalc]
    linarith

/-- Every position written by a `layoutMarriage` call at cursor `x0` lies
in `[x0, nextX - hSpacing]`, and the returned `centerX`/`nextX` satisfy
`x0 ≤ centerX`, `centerX + hSpacing ≤ nextX` and `x0 + hSpacing ≤ nextX`. -/
theorem layoutMarriage_bounds (ps : List Person) (ms : List Marriage) :
    ∀ (fuel : Nat) (mid : String) (d x0 : ℚ) (st : LState) c n st' w,
      layoutMarriage ps ms fuel mid d x0 st = some (c, n, st', w) →
      x0 + hSpacing ≤ n ∧ x0 ≤ c ∧ c + hSpacing ≤ n ∧
        ∀ kv ∈ w, x0 ≤ (kv.2).x ∧ (kv.2).x + hSpacing ≤ n
  | 0, mid, d, x0, st, c, n, st', w => by
    intro h
    exact absurd h (by simp [layoutMarriage])
  | fuel + 1, mid, d, x0, st, c, n, st', w => by
    intro h
    rw [show layoutMarriage ps ms (fuel + 1)
        = layoutMarriageStep ps ms (layoutMarriage ps ms fuel) from rfl] at h
    unfold layoutMarriageStep at h
    cases hm : marriageMap ms mid with
    | none =>
      simp only [hm, Option.some.injEq, Prod.mk.injEq] at h
      obtain ⟨h1, h2, _, h4⟩ := h
      subst h1 h2 h4
      exact ⟨le_refl _, le_refl _, le_refl _, by simp⟩
    | some m =>
      simp only [hm] at h
      by_cases hv : st.visited.contains mid = true
      · rw [if_pos hv] at h
        simp only [Option.some.injEq, Prod.mk.injEq] at h
        obtain ⟨h1, h2, _, h4⟩ := h
        subst h1 h2 h4
        exact ⟨le_refl _, le_refl _, le_refl _, by simp⟩
      · rw [if_neg hv] at h
        cases hr : layoutChildren ms (layoutMarriage ps ms fuel) d
            (sortedChildren ps m.children) x0
            { st with visited := st.visited ++ [mid] } with
        | none => simp [hr] at h
        | some r =>
          obtain ⟨centers, cur, st2, wc⟩ := r
          simp only [hr, Option.some.injEq, Prod.mk.injEq] at h
          obtain ⟨hc, hn, hst, hw⟩ := h
          subst hc
          subst hn
          subst hw
          obtain ⟨hmono, hcents, hwr, _⟩ := layoutChildren_bounds ms
            (layoutMarriage ps ms fuel) (layoutMarriage_bounds ps ms fuel) d
            (sortedChildren ps m.children) x0
            { st with visited := st.visited ++ [mid] } centers cur st2 wc hr
          have hCX := x0_le_centerCalc x0 cur centers hmono
            (fun cc hcc => (hcents cc hcc).1)
          refine ⟨?_, hCX, le_max_right _ _, ?_⟩
          · have h2 := le_max_right cur (centerCalc cur centers + hSpacing)
            linarith
          · intro kv hkv
            rcases List.mem_append.mp hkv with hkv1 | hkv2
            · obtain ⟨ha, hb⟩ := hwr kv hkv1
              exact ⟨ha, le_trans hb (le_max_left _ _)⟩
            · have hx : (kv.2).x = centerCalc cur centers := by
                rcases List.mem_cons.mp hkv2 with rfl | hkv3
                · rfl
                · rcases List.mem_cons.mp hkv3 with rfl | hkv4
                  · rfl
                  · exact absurd hkv4 (by simp)
              rw [hx]
              exact ⟨hCX, le_max_right _ _⟩

/-- Bounds for the driving loop: each root's writes sit at or beyond that
root's starting cursor, and the per-root write lists are pairwise
strictly ordered in `x`. -/
theorem layoutRoots_bounds (ps : List Person) (ms : List Marriage) (fuel : Nat) :
    ∀ (roots : List Marriage) (g : ℚ) (st : LState) stF ws,
      layoutRoots ps ms fuel roots g st = some (stF, ws) →
      (∀ l ∈ ws, ∀ kv ∈ l, g ≤ ((kv : String × Pos).2).x)
      ∧ List.Pairwise
          (fun l1 l2 => ∀ p ∈ l1, ∀ q ∈ l2,
            ((p : String × Pos).2).x < ((q : String × Pos).2).x) ws
  | [], g, st, stF, ws => by
    intro h
    simp only [layoutRoots, Option.some.injEq, Prod.mk.injEq] at h
    rw [← h.2]
    exact ⟨by simp, by simp⟩
  | rm :: rest, g, st, stF, ws => by
    intro h
    simp only [layoutRoots] at h
    cases hc : layoutMarriage ps ms fuel rm._id 1 g st with
    | none => simp [hc] at h
    | some r =>
      obtain ⟨c1, n1, st1, w1⟩ := r
      simp only [hc] at h
      cases hr : layoutRoots ps ms fuel rest (n1 + hSpacing) st1 with
      | none => simp [hr] at h
      | some r2 =>
        obtain ⟨stF2, ws2⟩ := r2
        simp only [hr, Option.some.injEq, Prod.mk.injEq] at h
        obtain ⟨_, hws⟩ := h
        subst hws
        obtain ⟨hgn, _, _, hw1⟩ := layoutMarriage_bounds ps ms fuel rm._id 1 g st
          c1 n1 st1 w1 hc
        obtain ⟨hlo, hpw⟩ := layoutRoots_bounds ps ms fuel rest (n1 + hSpacing)
          st1 stF2 ws2 hr
        constructor
        · intro l hl kv hkv
          rcases List.mem_cons.mp hl with rfl | hl2
          · exact (hw1 kv hkv).1
          · have := hlo l hl2 kv hkv
            linarith [hSpacing_pos]
        · refine List.Pairwise.cons ?_ hpw
          intro l2 hl2 p hp q hq
          have hpx := (hw1 p hp).2
          have hqx := hlo l2 hl2 q hq
          linarith [hSpacing_pos]

/-- C5: (i) across the driving loop, the per-root-subtree position writes
are pairwise strictly separated in `x` (every `x` written by an earlier
root subtree is strictly below every `x` written by a later one), so the
horizontal spans `[minX, maxX]` of two distinct root subtrees never
intersect; (ii) in general, for two consecutive `layoutMarriage` calls
where the second starts at or beyond the first's returned `nextX =
max(cursor, centerX + hSpacing)` — exactly how the recursion resumes for
a sibling child subtree and how the driving loop resumes for the next
root — every position written by the first call is strictly to the left
of every position written by the second. -/
theorem C5_no_overlap :
    (∀ (ps : List Person) (ms : List Marriage) (st : LState)
        (ws : List (List (String × Pos))),
      familyTreeTrace ps ms = some (st, ws) →
      List.Pairwise
        (fun l1 l2 => ∀ p ∈ l1, ∀ q ∈ l2,
          ((p : String × Pos).2).x < ((q : String × Pos).2).x) ws)
    ∧ (∀ (ps : List Person) (ms : List Marriage) (f1 f2 : Nat)
        (mid1 mid2 : String) (d1 d2 x0 x1 : ℚ) (st : LState)
        c n st' w c' n' st'' w',
      layoutMarriage ps ms f1 mid1 d1 x0 st = some (c, n, st', w) →
      n ≤ x1 →
      layoutMarriage ps ms f2 mid2 d2 x1 st' = some (c', n', st'', w') →
      ∀ p ∈ w, ∀ q ∈ w',
        ((p : String × Pos).2).x < ((q : String × Pos).2).x) := by
  constructor
  · intro ps ms st ws h
    exact (layoutRoots_bounds ps ms (ms.length + 1) (rootMarriages ms) 0
      initialState st ws h).2
  · intro ps ms f1 f2 mid1 mid2 d1 d2 x0 x1 st c n st' w c' n' st'' w' h1 hx h2 p hp q hq
    have hb1 := (layoutMarriage_bounds ps ms f1 mid1 d1 x0 st c n st' w h1).2.2.2 p hp
    have hb2 := (layoutMarriage_bounds ps ms f2 mid2 d2 x1 st' c' n' st'' w' h2).2.2.2 q hq
    linarith [hSpacing_pos, hb1.2, hb2.1]

/-- Two-root input for the C5 witness. -/
def c5persons : List Person :=
  [⟨"p1", none⟩, ⟨"p2", none⟩, ⟨"p3", none⟩, ⟨"p4", none⟩]

def c5marriages : List Marriage :=
  [⟨"mA", ["p1", "p2"], []⟩, ⟨"mB", ["p3", "p4"], []⟩]

def c5state : LState :=
  ((familyTreeTrace c5persons c5marriages).map (fun r => r.1)).getD initialState

def c5writes : List (List (String × Pos)) :=
  ((familyTreeTrace c5persons c5marriages).map (fun r => r.2)).getD []

/-- Witness for C5: the pairwise-separation statement applied to the
two-root input. -/
theorem C5_witness :
    List.Pairwise
      (fun l1 l2 => ∀ p ∈ l1, ∀ q ∈ l2,
        ((p : String × Pos).2).x < ((q : String × Pos).2).x) c5writes :=
  C5_no_overlap.1 c5persons c5marriages c5state c5writes rfl

/-! ## Node-content invariant of the recursive pass -/

theorem contains_mono {v e : List String} {s : String}
    (h : v.contains s = true) : (v ++ e).contains s = true := by
  simp only [List.elem_eq_mem, decide_eq_true_eq, List.mem_append] at h ⊢
  exact Or.inl h

/-- What the recursive pass is allowed to push: spouse-pair nodes carry
the resolved spouses of a marriage from the input list that is already
visited, marriage nodes carry a marriage, and no bare person node is ever
pushed by the recursive pass. -/
def nodeOK (ps : List Person) (ms : List Marriage) (visited : List String)
    (nd : Node) : Prop :=
  match nd.payload with
  | NodePayload.person _ => False
  | NodePayload.marriedPerson sps mm =>
      sps = resolvedSpouses ps mm ∧ mm ∈ ms ∧ visited.contains mm._id = true
  | NodePayload.marriage _ => True

theorem nodeOK_mono (ps : List Person) (ms : List Marriage)
    {v : List String} (e : List String) {nd : Node}
    (h : nodeOK ps ms v nd) : nodeOK ps ms (v ++ e) nd := by
  unfold nodeOK at h ⊢
  cases hp : nd.payload with
  | person q => rw [hp] at h; exact h
  | marriedPerson sps mm =>
    rw [hp] at h
    exact ⟨h.1, h.2.1, contains_mono h.2.2⟩
  | marriage mm => trivial

/-- Nodes appended by the children loop all satisfy `nodeOK` for the
final visited set, given the same for the recursive callee. -/
theorem layoutChildren_nodes_inv (ps : List Person) (ms : List Marriage)
    (lm : String → ℚ → ℚ → LState → Option LMResult)
    (hlmExt : ∀ mid dd x st c n st' w, lm mid dd x st = some (c, n, st', w) →
      ∃ e, st'.visited = st.visited ++ e)
    (hlm : ∀ mid dd x st c n st' w, lm mid dd x st = some (c, n, st', w) →
      ∃ new, st'.nodes = st.nodes ++ new ∧ ∀ nd ∈ new, nodeOK ps ms st'.visited nd)
    (d : ℚ) :
    ∀ (kids : List String) (cur : ℚ) (st : LState) cs cur' st' w,
      layoutChildren ms lm d kids cur st = some (cs, cur', st', w) →
      ∃ new, st'.nodes = st.nodes ++ new ∧ ∀ nd ∈ new, nodeOK ps ms st'.visited nd
  | [], cur, st, cs, cur', st', w => by
    intro h
    simp only [layoutChildren, Option.some.injEq, Prod.mk.injEq] at h
    obtain ⟨_, _, h3, _⟩ := h
    subst h3
    exact ⟨[], by simp, by simp⟩
  | cid :: rest, cur, st, cs, cur', st', w => by
    intro h
    simp only [layoutChildren] at h
    cases hfind : (spouseMarriageIds ms cid).find?
        (fun mid2 => !(st.visited.contains mid2)) with
    | some cmid =>
      simp only [hfind] at h
      cases hc : lm cmid (d + 2) cur st with
      | none => simp [hc] at h
      | some r =>
        obtain ⟨c1, n1, st1, w1⟩ := r
        simp only [hc] at h
        cases hr : layoutChildren ms lm d rest n1 st1 with
        | none => simp [hr] at h
        | some r2 =>
          obtain ⟨cs2, cur2, st2, w2⟩ := r2
          simp only [hr, Option.some.injEq, Prod.mk.injEq] at h
          obtain ⟨_, _, h3, _⟩ := h
          subst h3
          obtain ⟨new1, hn1, hok1⟩ := hlm cmid (d + 2) cur st c1 n1 st1 w1 hc
          obtain ⟨new2, hn2, hok2⟩ :=
            layoutChildren_nodes_inv ps ms lm hlmExt hlm d rest n1 st1
              cs2 cur2 st2 w2 hr
          obtain ⟨e2, he2⟩ := layoutChildren_visited_ext ms lm hlmExt d rest n1 st1
            cs2 cur2 st2 w2 hr
          refine ⟨new1 ++ new2, by rw [hn2, hn1, List.append_assoc], ?_⟩
          intro nd hnd
          rcases List.mem_append.mp hnd with hnd1 | hnd2
          · exact he2 ▸ nodeOK_mono ps ms e2 (hok1 nd hnd1)
          · exact hok2 nd hnd2
    | none =>
      simp only [hfind] at h
      cases hr : layoutChildren ms lm d rest (cur + hSpacing)
          { st with positions := upsert st.positions cid ⟨cur, (d + 1) * vSpacing⟩ } with
      | none => simp [hr] at h
      | some r2 =>
        obtain ⟨cs2, cur2, st2, w2⟩ := r2
        simp only [hr, Option.some.injEq, Prod.mk.injEq] at h
        obtain ⟨_, _, h3, _⟩ := h
        subst h3
        obtain ⟨new2, hn2, hok2⟩ := layoutChildren_nodes_inv ps ms lm hlmExt hlm d
          rest (cur + hSpacing)
          { st with positions := upsert st.positions cid ⟨cur, (d + 1) * vSpacing⟩ }
          cs2 cur2 st2 w2 hr
        exact ⟨new2, hn2, hok2⟩

/-- Nodes appended by a `layoutMarriage` call all satisfy `nodeOK` for the
state it returns. -/
theorem layoutMarriage_nodes_inv (ps : List Person) (ms : List Marriage) :
    ∀ (fuel : Nat) (mid : String) (d x0 : ℚ) (st : LState) c n st' w,
      layoutMarriage ps ms fuel mid d x0 st = some (c, n, st', w) →
      ∃ new, st'.nodes = st.nodes ++ new ∧ ∀ nd ∈ new, nodeOK ps ms st'.visited nd
  | 0, mid, d, x0, st, c, n, st', w => by
    intro h
    exact absurd h (by simp [layoutMarriage])
  | fuel + 1, mid, d, x0, st, c, n, st', w => by
    intro h
    rw [show layoutMarriage ps ms (fuel + 1)
        = layoutMarriageStep ps ms (layoutMarriage ps ms fuel) from rfl] at h
    unfold layoutMarriageStep at h
    cases hm : marriageMap ms mid with
    | none =>
      simp only [hm, Option.some.injEq, Prod.mk.injEq] at h
      obtain ⟨_, _, h3, _⟩ := h
      subst h3
      exact ⟨[], by simp, by simp⟩
    | some m =>
      simp only [hm] at h
      by_cases hv : st.visited.contains mid = true
      · rw [if_pos hv] at h
        simp only [Option.some.injEq, Prod.mk.injEq] at h
        obtain ⟨_, _, h3, _⟩ := h
        subst h3
        exact ⟨[], by simp, by simp⟩
      · rw [if_neg hv] at h
        cases hr : layoutChildren ms (layoutMarriage ps ms fuel) d
            (sortedChildren ps m.children) x0
            { st with visited := st.visited ++ [mid] } with
        | none => simp [hr] at h
        | some r =>
          obtain ⟨centers, cur, st2, wc⟩ := r
          simp only [hr, Option.some.injEq, Prod.mk.injEq] at h
          obtain ⟨hc, hn, h3, hw⟩ := h
          subst h3
          obtain ⟨new2, hn2, hok2⟩ := layoutChildren_nodes_inv ps ms
            (layoutMarriage ps ms fuel) (layoutMarriage_visited_ext ps ms fuel)
            (layoutMarriage_nodes_inv ps ms fuel) d
            (sortedChildren ps m.children) x0
            { st with visited := st.visited ++ [mid] } centers cur st2 wc hr
          obtain ⟨e2, he2⟩ := layoutChildren_visited_ext ms
            (layoutMarriage ps ms fuel) (layoutMarriage_visited_ext ps ms fuel) d
            (sortedChildren ps m.children) x0
            { st with visited := st.visited ++ [mid] } centers cur st2 wc hr
          have hcontains : st2.visited.contains m._id = true := by
            rw [he2]
            show ((st.visited ++ [mid]) ++ e2).contains m._id = true
        -- `mid = m._id` comes from `marriageMap_mem`
        -- membership in the middle singleton
            have hid := (marriageMap_mem hm).2
            rw [hid]
            refine contains_mono ?_
            simp [List.elem_eq_mem]
          refine ⟨new2 ++
            [⟨spouseNodeId m, NodePayload.marriedPerson (resolvedSpouses ps m) m,
              ⟨centerCalc cur centers, (d - 1) * vSpacing⟩⟩,
             ⟨marriageNodeId m, NodePayload.marriage m,
              ⟨centerCalc cur centers, d * vSpacing + 5⟩⟩], ?_, ?_⟩
          · show st2.nodes ++ _ = st.nodes ++ _
            rw [hn2, List.append_assoc]
          · intro nd hnd
            rcases List.mem_append.mp hnd with hnd1 | hnd2
            · exact hok2 nd hnd1
            · show nodeOK ps ms st2.visited nd
              rcases List.mem_cons.mp hnd2 with rfl | hnd3
              · exact ⟨rfl, (marriageMap_mem hm).1, hcontains⟩
              · rcases List.mem_cons.mp hnd3 with rfl | hnd4
                · trivial
                · exact absurd hnd4 (by simp)

/-- The driving loop only ever appends to the visited set. -/
theorem layoutRoots_visited_ext (ps : List Person) (ms : List Marriage) (fuel : Nat) :
    ∀ (roots : List Marriage) (g : ℚ) (st : LState) stF ws,
      layoutRoots ps ms fuel roots g st = some (stF, ws) →
      ∃ e, stF.visited = st.visited ++ e
  | [], g, st, stF, ws => by
    intro h
    simp only [layoutRoots, Option.some.injEq, Prod.mk.injEq] at h
    exact ⟨[], by rw [← h.1]; simp⟩
  | rm :: rest, g, st, stF, ws => by
    intro h
    simp only [layoutRoots] at h
    cases hc : layoutMarriage ps ms fuel rm._id 1 g st with
    | none => simp [hc] at h
    | some r =>
      obtain ⟨c1, n1, st1, w1⟩ := r
      simp only [hc] at h
      cases hr : layoutRoots ps ms fuel rest (n1 + hSpacing) st1 with
      | none => simp [hr] at h
      | some r2 =>
        obtain ⟨stF2, ws2⟩ := r2
        simp only [hr, Option.some.injEq, Prod.mk.injEq] at h
        obtain ⟨h1, _⟩ := h
        subst h1
        obtain ⟨e1, he1⟩ := layoutMarriage_visited_ext ps ms fuel rm._id 1 g st
          c1 n1 st1 w1 hc
        obtain ⟨e2, he2⟩ := layoutRoots_visited_ext ps ms fuel rest
          (n1 + hSpacing) st1 stF2 ws2 hr
        exact ⟨e1 ++ e2, by rw [he2, he1, List.append_assoc]⟩

/-- Nodes present after the driving loop all satisfy `nodeOK` for the
final visited set. -/
theorem layoutRoots_nodes_inv (ps : List Person) (ms : List Marriage) (fuel : Nat) :
    ∀ (roots : List Marriage) (g : ℚ) (st : LState) stF ws,
      layoutRoots ps ms fuel roots g st = some (stF, ws) →
      ∃ new, stF.nodes = st.nodes ++ new ∧ ∀ nd ∈ new, nodeOK ps ms stF.visited nd
  | [], g, st, stF, ws => by
    intro h
    simp only [layoutRoots, Option.some.injEq, Prod.mk.injEq] at h
    rw [← h.1]
    exact ⟨[], by simp, by simp⟩
  | rm :: rest, g, st, stF, ws => by
    intro h
    simp only [layoutRoots] at h
    cases hc : layoutMarriage ps ms fuel rm._id 1 g st with
    | none => simp [hc] at h
    | some r =>
      obtain ⟨c1, n1, st1, w1⟩ := r
      simp only [hc] at h
      cases hr : layoutRoots ps ms fuel rest (n1 + hSpacing) st1 with
      | none => simp [hr] at h
      | some r2 =>
        obtain ⟨stF2, ws2⟩ := r2
        simp only [hr, Option.some.injEq, Prod.mk.injEq] at h
        obtain ⟨h1, _⟩ := h
        subst h1
        obtain ⟨new1, hn1, hok1⟩ := layoutMarriage_nodes_inv ps ms fuel rm._id 1 g st
          c1 n1 st1 w1 hc
        obtain ⟨new2, hn2, hok2⟩ := layoutRoots_nodes_inv ps ms fuel rest
          (n1 + hSpacing) st1 stF2 ws2 hr
        obtain ⟨e, he⟩ := layoutRoots_visited_ext ps ms fuel rest
          (n1 + hSpacing) st1 stF2 ws2 hr
        refine ⟨new1 ++ new2, by rw [hn2, hn1, List.append_assoc], ?_⟩
        intro nd hnd
        rcases List.mem_append.mp hnd with hnd1 | hnd2
        · exact he ▸ nodeOK_mono ps ms e (hok1 nd hnd1)
        · exact hok2 nd hnd2

/-! ## C9: the standalone pass filters on spouse membership -/

theorem mem_standaloneNodes {ps : List Person} {ms : List Marriage}
    {st : LState} {nd : Node} (h : nd ∈ standaloneNodes ps ms st) :
    ∃ q ∈ ps, isSpouseAny ms q._id = false
      ∧ nd = ⟨q._id, NodePayload.person q,
          (lookupPos st.positions q._id).getD ⟨0, 0⟩⟩ := by
  unfold standaloneNodes at h
  rcases List.mem_filterMap.mp h with ⟨q, hq, hfq⟩
  by_cases hs : isSpouseAny ms q._id = true
  · rw [if_pos hs] at hfq
    exact absurd hfq (by simp)
  · rw [if_neg hs] at hfq
    refine ⟨q, hq, by rw [← Bool.not_eq_true]; exact hs, ?_⟩
    exact (Option.some.injEq _ _ ▸ hfq).symm

theorem mem_resolvedSpouses {ps : List Person} {mm : Marriage} {q : Person}
    (h : q ∈ resolvedSpouses ps mm) : q._id ∈ mm.spouses := by
  unfold resolvedSpouses at h
  rcases List.mem_filterMap.mp h with ⟨sid, hsid, hfq⟩
  have := List.find?_some hfq
  have hq : q._id = sid := by simpa using this
  rw [hq]
  exact hsid

/-- C9: (i) a person who is a spouse in at least one marriage never
yields a standalone `"person"` node, whatever the recursive pass did;
(ii) if moreover none of that person's marriages was visited by the
recursive pass (as happens for every marriage of a rootless cyclic
component), the person appears in no output node at all — neither as a
person payload nor inside any spouse-pair payload. -/
theorem C9_spouse_filter :
    (∀ (ps : List Person) (ms : List Marriage) (nodes : List Node)
        (edges : List Edge),
      familyTree ps ms = some (nodes, edges) →
      ∀ p : Person, isSpouseAny ms p._id = true →
      ∀ nd ∈ nodes, ∀ q : Person, nd.payload = NodePayload.person q →
        q._id ≠ p._id)
    ∧ (∀ (ps : List Person) (ms : List Marriage) (st : LState)
        (ws : List (List (String × Pos))),
      familyTreeTrace ps ms = some (st, ws) →
      ∀ p : Person, isSpouseAny ms p._id = true →
      (∀ mm ∈ ms, p._id ∈ mm.spouses → st.visited.contains mm._id = false) →
      ∀ nd ∈ st.nodes ++ standaloneNodes ps ms st,
        (∀ q : Person, nd.payload = NodePayload.person q → q._id ≠ p._id)
        ∧ (∀ (sps : List Person) (mm : Marriage),
            nd.payload = NodePayload.marriedPerson sps mm → p ∉ sps)) := by
  have hmain : ∀ (ps : List Person) (ms : List Marriage) (st : LState)
      (ws : List (List (String × Pos))),
      familyTreeTrace ps ms = some (st, ws) →
      ∀ nd ∈ st.nodes, nodeOK ps ms st.visited nd := by
    intro ps ms st ws h nd hnd
    obtain ⟨new, hn, hok⟩ := layoutRoots_nodes_inv ps ms (ms.length + 1)
      (rootMarriages ms) 0 initialState st ws h
    rw [hn] at hnd
    rcases List.mem_append.mp hnd with h1 | h2
    · exact absurd h1 (by simp [initialState])
    · exact hok nd h2
  have hstandalone : ∀ (ps : List Person) (ms : List Marriage) (st : LState)
      (p : Person), isSpouseAny ms p._id = true →
      ∀ nd ∈ standaloneNodes ps ms st,
      ∀ q : Person, nd.payload = NodePayload.person q → q._id ≠ p._id := by
    intro ps ms st p hp nd hnd q hq hqp
    obtain ⟨q', hq', hns, hnd'⟩ := mem_standaloneNodes hnd
    rw [hnd'] at hq
    have hq'q : q' = q := by injection hq
    subst hq'q
    rw [hqp, hp] at hns
    exact absurd hns (by simp)
  constructor
  · intro ps ms nodes edges h p hp nd hnd q hq
    unfold familyTree at h
    cases ht : familyTreeTrace ps ms with
    | none => rw [ht] at h; exact absurd h (by simp)
    | some r =>
      obtain ⟨st, ws⟩ := r
      rw [ht] at h
      simp only [Option.some.injEq, Prod.mk.injEq] at h
      obtain ⟨hnodes, _⟩ := h
      rw [← hnodes] at hnd
      rcases List.mem_append.mp hnd with h1 | h2
      · have hok := hmain ps ms st ws ht nd h1
        unfold nodeOK at hok
        rw [hq] at hok
        exact absurd hok (by simp)
      · exact hstandalone ps ms st p hp nd h2 q hq
  · intro ps ms st ws ht p hp hunv nd hnd
    rcases List.mem_append.mp hnd with h1 | h2
    · have hok := hmain ps ms st ws ht nd h1
      constructor
      · intro q hq
        unfold nodeOK at hok
        rw [hq] at hok
        exact absurd hok (by simp)
      · intro sps mm hmm hpin
        unfold nodeOK at hok
        rw [hmm] at hok
        obtain ⟨hsps, hmem, hcont⟩ := hok
        have hpid : p._id ∈ mm.spouses := mem_resolvedSpouses (hsps ▸ hpin)
        have := hunv mm hmem hpid
        rw [hcont] at this
        exact absurd this (by simp)
    · constructor
      · exact fun q hq => hstandalone ps ms st p hp nd h2 q hq
      · intro sps mm hmm
        obtain ⟨q', _, _, hnd'⟩ := mem_standaloneNodes h2
        rw [hnd'] at hmm
        exact absurd hmm (by simp)

/-- Rootless cyclic input: `m1(a,b,[c])`, `m2(c,d,[a])`.  Neither
marriage is a root, so the recursive pass never runs. -/
def cycPersons : List Person :=
  [⟨"a", none⟩, ⟨"b", none⟩, ⟨"c", none⟩, ⟨"d", none⟩]

def cycMarriages : List Marriage :=
  [⟨"m1", ["a", "b"], ["c"]⟩, ⟨"m2", ["c", "d"], ["a"]⟩]

def cycState : LState :=
  ((familyTreeTrace cycPersons cycMarriages).map (fun r => r.1)).getD initialState

def cycWrites : List (List (String × Pos)) :=
  ((familyTreeTrace cycPersons cycMarriages).map (fun r => r.2)).getD []

/-- Witness for C9: on the rootless cycle, person `a` — a spouse of the
unvisited `m1` — is referenced by no output node. -/
theorem C9_witness :
    ∀ nd ∈ cycState.nodes ++ standaloneNodes cycPersons cycMarriages cycState,
      (∀ q : Person, nd.payload = NodePayload.person q → q._id ≠ "a")
      ∧ (∀ (sps : List Person) (mm : Marriage),
          nd.payload = NodePayload.marriedPerson sps mm → (⟨"a", none⟩ : Person) ∉ sps) :=
  C9_spouse_filter.2 cycPersons cycMarriages cycState cycWrites rfl
    ⟨"a", none⟩ (by decide) (by decide)

/-! ## C1: which persons appear in the output, and how often -/

/-- Test for a standalone `"person"` node carrying the given person id. -/
def personNodeFor (pid : String) (nd : Node) : Bool :=
  match nd.payload with
  | NodePayload.person q => q._id == pid
  | _ => false

theorem standalone_count_zero (ms : List Marriage) (st : LState) (pid : String) :
    ∀ ps2 : List Person, (∀ q ∈ ps2, q._id ≠ pid) →
      ((standaloneNodes ps2 ms st).filter (personNodeFor pid)).length = 0
  | [] => fun _ => rfl
  | q :: t => fun h => by
    unfold standaloneNodes
    simp only [List.filterMap_cons]
    by_cases hs : isSpouseAny ms q._id = true
    · rw [if_pos hs]
      exact standalone_count_zero ms st pid t (fun q' hq' => h q' (by simp [hq']))
    · rw [if_neg hs]
      have hqf : personNodeFor pid ⟨q._id, NodePayload.person q,
          (lookupPos st.positions q._id).getD ⟨0, 0⟩⟩ = false := by
        simp only [personNodeFor, beq_eq_false_iff_ne, ne_eq]
        exact h q (by simp)
      rw [List.filter_cons, hqf]
      simp only [Bool.false_eq_true, ite_false]
      exact standalone_count_zero ms st pid t (fun q' hq' => h q' (by simp [hq']))

theorem standalone_count (ms : List Marriage) (st : LState) :
    ∀ ps2 : List Person, (ps2.map (fun p => p._id)).Nodup →
      ∀ p ∈ ps2,
        ((standaloneNodes ps2 ms st).filter (personNodeFor p._id)).length
          = (if isSpouseAny ms p._id = true then 0 else 1)
  | [] => fun _ p hp => absurd hp (by simp)
  | q :: t => fun hnd p hp => by
    have hnd' : (∀ x ∈ t, ¬ x._id = q._id) ∧ (List.map (fun p => p._id) t).Nodup := by
      simpa using hnd
    rcases List.mem_cons.mp hp with rfl | hpt
    · unfold standaloneNodes
      simp only [List.filterMap_cons]
      by_cases hs : isSpouseAny ms p._id = true
      · rw [if_pos hs, if_pos hs]
        exact standalone_count_zero ms st p._id t
          (fun q' hq' => fun he => hnd'.1 q' hq' he)
      · rw [if_neg hs, if_neg hs]
        have hqt : personNodeFor p._id ⟨p._id, NodePayload.person p,
            (lookupPos st.positions p._id).getD ⟨0, 0⟩⟩ = true := by
          simp [personNodeFor]
        rw [List.filter_cons, hqt]
        simp only [ite_true, List.length_cons]
        have := standalone_count_zero ms st p._id t
          (fun q' hq' => fun he => hnd'.1 q' hq' he)
        unfold standaloneNodes at this
        omega
    · unfold standaloneNodes
      simp only [List.filterMap_cons]
      have hqp : q._id ≠ p._id := fun he => hnd'.1 p hpt he.symm
      have hrec := standalone_count ms st t hnd'.2 p hpt
      unfold standaloneNodes at hrec
      by_cases hs : isSpouseAny ms q._id = true
      · rw [if_pos hs]
        exact hrec
      · rw [if_neg hs]
        have hqf : personNodeFor p._id ⟨q._id, NodePayload.person q,
            (lookupPos st.positions q._id).getD ⟨0, 0⟩⟩ = false := by
          simp only [personNodeFor, beq_eq_false_iff_ne, ne_eq]
          exact hqp
        rw [List.filter_cons, hqf]
        simp only [Bool.false_eq_true, ite_false]
        exact hrec

/-- C1 amended: with distinct person ids, a person who is **not** a spouse
in any marriage gets exactly one standalone node (no duplicates, no
omissions among non-spouse persons), while a person who **is** a spouse in
some marriage gets no standalone node at all — such persons appear only
through the spouse-pair payloads of marriages the recursive pass actually
visited, so spouses whose marriages are all unvisited (a rootless cyclic
component) are omitted from the output entirely. -/
theorem C1_per_person_count :
    ∀ (ps : List Person) (ms : List Marriage) (nodes : List Node)
        (edges : List Edge),
      familyTree ps ms = some (nodes, edges) →
      (ps.map (fun p => p._id)).Nodup →
      ∀ p ∈ ps,
        (nodes.filter (personNodeFor p._id)).length
          = (if isSpouseAny ms p._id = true then 0 else 1) := by
  intro ps ms nodes edges h hnd p hp
  unfold familyTree at h
  cases ht : familyTreeTrace ps ms with
  | none => rw [ht] at h; exact absurd h (by simp)
  | some r =>
    obtain ⟨st, ws⟩ := r
    rw [ht] at h
    simp only [Option.some.injEq, Prod.mk.injEq] at h
    obtain ⟨hnodes, _⟩ := h
    rw [← hnodes, List.filter_append, List.length_append]
    have hleft : (st.nodes.filter (personNodeFor p._id)).length = 0 := by
      have hok : ∀ nd ∈ st.nodes, nodeOK ps ms st.visited nd := by
        intro nd hnd2
        obtain ⟨new, hn, hok⟩ := layoutRoots_nodes_inv ps ms (ms.length + 1)
          (rootMarriages ms) 0 initialState st ws ht
        rw [hn] at hnd2
        rcases List.mem_append.mp hnd2 with h1 | h2
        · exact absurd h1 (by simp [initialState])
        · exact hok nd h2
      rw [List.length_eq_zero, List.filter_eq_nil_iff]
      intro nd hnd2
      have := hok nd hnd2
      unfold nodeOK at this
      unfold personNodeFor
      cases hq : nd.payload with
      | person q => rw [hq] at this; exact absurd this (by simp)
      | marriedPerson sps mm => simp
      | marriage mm => simp
    rw [hleft, standalone_count ms st ps hnd p hp]
    omega

/-- C1 counterexample: on the rootless cycle the output node list is
empty although there are four input persons, so not every input person
gets a node. -/
theorem C1_cex :
    familyTree cycPersons cycMarriages = some ([], []) ∧ cycPersons.length = 4 :=
  ⟨by decide, by decide⟩

def c1nodes : List Node :=
  ((familyTree c2persons c2marriages).map (fun r => r.1)).getD []

def c1edges : List Edge :=
  ((familyTree c2persons c2marriages).map (fun r => r.2)).getD []

/-- Witness for C1: the isolated non-spouse `p7` gets exactly one
standalone node on the concrete input. -/
theorem C1_witness :
    (c1nodes.filter (personNodeFor "p7")).length = 1 := by
  have h := C1_per_person_count c2persons c2marriages c1nodes c1edges rfl
    (by decide) ⟨"p7", none⟩ (by decide)
  rw [show isSpouseAny c2marriages "p7" = false from by decide] at h
  simpa using h

/-! ## C7: coordinates assigned by one `layoutMarriage` call -/

/-- C7 counterexample: the marriage node of `m1` (laid out at depth 1)
sits at `y = 85 = 1·vSpacing + 5`, not at `1·vSpacing = 80` as the claim
states. -/
theorem C7_cex :
    (familyTree c2persons c2marriages).map
        (fun out => (out.1.find? (fun nd => nd.id == "marriage-m1")).map Node.position)
      = some (some ⟨0, 85⟩)
    ∧ (85 : ℚ) ≠ 1 * vSpacing := by
  refine ⟨?_, by norm_num [vSpacing]⟩
  norm_num [familyTree, familyTreeTrace, layoutRoots, layoutMarriage, layoutMarriageStep,
    layoutChildren, rootMarriages, marriageHasParent, spouseMarriageIds, marriageMap,
    sortedChildren, childLE, childCompare, dobToDate, upsert, lookupPos, standaloneNodes,
    isSpouseAny, initialState, c2persons, c2marriages, hSpacing, vSpacing, centerCalc,
    spouseNodeId, marriageNodeId, unionEdge, childEdge, resolvedSpouses,
    List.insertionSort, List.orderedInsert, List.find?, List.filter, List.filterMap,
    List.contains]
  simp

/-- C7 amended: in a non-guard `layoutMarriage` call, `centerX` is the
cursor when there are no child centers and the midpoint of their minimum
and maximum otherwise; the spouse-pair node is placed at
`(centerX, (depth−1)·vSpacing)`; the marriage node at
`(centerX, depth·vSpacing + 5)` (the slight downward offset is `+5`, not
`0`); `nextX = max(cursor, centerX + hSpacing)`; and each leaf child is
placed at `(cursor, (depth+1)·vSpacing)` with the cursor advancing by
`hSpacing`. -/
theorem C7_placement :
    (∀ (ps : List Person) (ms : List Marriage) (fuel : Nat) (mid : String)
        (d x0 : ℚ) (st : LState) (m : Marriage) c n st' w,
      marriageMap ms mid = some m → st.visited.contains mid = false →
      layoutMarriage ps ms (fuel + 1) mid d x0 st = some (c, n, st', w) →
      ∃ centers cur st2 wc,
        layoutChildren ms (layoutMarriage ps ms fuel) d (sortedChildren ps m.children)
            x0 { st with visited := st.visited ++ [mid] } = some (centers, cur, st2, wc)
        ∧ c = centerCalc cur centers
        ∧ n = max cur (c + hSpacing)
        ∧ st'.nodes = st2.nodes ++
            [⟨spouseNodeId m, NodePayload.marriedPerson (resolvedSpouses ps m) m,
              ⟨c, (d - 1) * vSpacing⟩⟩,
             ⟨marriageNodeId m, NodePayload.marriage m, ⟨c, d * vSpacing + 5⟩⟩]
        ∧ w = wc ++ [(spouseNodeId m, ⟨c, (d - 1) * vSpacing⟩),
            (marriageNodeId m, ⟨c, d * vSpacing + 5⟩)])
    ∧ (∀ cur0 : ℚ, centerCalc cur0 [] = cur0)
    ∧ (∀ (cur0 c0 : ℚ) (cs : List ℚ),
        centerCalc cur0 (c0 :: cs) = (cs.foldl min c0 + cs.foldl max c0) / 2)
    ∧ (∀ (ms2 : List Marriage) (lm2 : String → ℚ → ℚ → LState → Option LMResult)
        (d2 : ℚ) (cid : String) (kids : List String) (cur0 : ℚ) (st0 : LState),
      (spouseMarriageIds ms2 cid).find? (fun mid2 => !(st0.visited.contains mid2))
          = none →
      layoutChildren ms2 lm2 d2 (cid :: kids) cur0 st0
        = (layoutChildren ms2 lm2 d2 kids (cur0 + hSpacing)
            { st0 with positions := upsert st0.positions cid ⟨cur0, (d2 + 1) * vSpacing⟩ }).map
            (fun r => (cur0 :: r.1, r.2.1, r.2.2.1,
              (cid, (⟨cur0, (d2 + 1) * vSpacing⟩ : Pos)) :: r.2.2.2))) := by
  refine ⟨?_, fun cur0 => rfl, fun cur0 c0 cs => rfl, ?_⟩
  · intro ps ms fuel mid d x0 st m c n st' w hm hv h
    rw [show layoutMarriage ps ms (fuel + 1)
        = layoutMarriageStep ps ms (layoutMarriage ps ms fuel) from rfl] at h
    unfold layoutMarriageStep at h
    simp only [hm] at h
    rw [if_neg (by rw [hv]; exact Bool.false_ne_true)] at h
    cases hr : layoutChildren ms (layoutMarriage ps ms fuel) d
        (sortedChildren ps m.children) x0
        { st with visited := st.visited ++ [mid] } with
    | none => simp [hr] at h
    | some r =>
      obtain ⟨centers, cur, st2, wc⟩ := r
      simp only [hr, Option.some.injEq, Prod.mk.injEq] at h
      obtain ⟨hc, hn, hst, hw⟩ := h
      subst hc
      subst hn
      subst hst
      subst hw
      exact ⟨centers, cur, st2, wc, rfl, rfl, rfl, rfl, rfl⟩
  · intro ms2 lm2 d2 cid kids cur0 st0 hfind
    simp only [layoutChildren, hfind]
    cases hr : layoutChildren ms2 lm2 d2 kids (cur0 + hSpacing)
        { st0 with positions := upsert st0.positions cid ⟨cur0, (d2 + 1) * vSpacing⟩ } with
    | none => simp
    | some r2 =>
      obtain ⟨cs2, cur2, st2, w2⟩ := r2
      simp

def c7call : LMResult :=
  (layoutMarriage c2persons c2marriages 2 "m1" 1 0 initialState).getD
    (0, 0, initialState, [])

/-- Witness for C7: the placement decomposition applied to the concrete
root call on `m1`. -/
theorem C7_witness :
    ∃ centers cur st2 wc,
      layoutChildren c2marriages (layoutMarriage c2persons c2marriages 1) 1
          (sortedChildren c2persons (⟨"m1", ["p1", "p2"], ["p3"]⟩ : Marriage).children)
          0 { initialState with visited := initialState.visited ++ ["m1"] }
        = some (centers, cur, st2, wc)
      ∧ c7call.1 = centerCalc cur centers
      ∧ c7call.2.1 = max cur (c7call.1 + hSpacing)
      ∧ c7call.2.2.1.nodes = st2.nodes ++
          [⟨spouseNodeId ⟨"m1", ["p1", "p2"], ["p3"]⟩,
            NodePayload.marriedPerson
              (resolvedSpouses c2persons ⟨"m1", ["p1", "p2"], ["p3"]⟩)
              ⟨"m1", ["p1", "p2"], ["p3"]⟩,
            ⟨c7call.1, (1 - 1) * vSpacing⟩⟩,
           ⟨marriageNodeId ⟨"m1", ["p1", "p2"], ["p3"]⟩,
            NodePayload.marriage ⟨"m1", ["p1", "p2"], ["p3"]⟩,
            ⟨c7call.1, 1 * vSpacing + 5⟩⟩]
      ∧ c7call.2.2.2 = wc ++
          [(spouseNodeId ⟨"m1", ["p1", "p2"], ["p3"]⟩,
            ⟨c7call.1, (1 - 1) * vSpacing⟩),
           (marriageNodeId ⟨"m1", ["p1", "p2"], ["p3"]⟩,
            ⟨c7call.1, 1 * vSpacing + 5⟩)] :=
  C7_placement.1 c2persons c2marriages 1 "m1" 1 0 initialState
    ⟨"m1", ["p1", "p2"], ["p3"]⟩ c7call.1 c7call.2.1 c7call.2.2.1 c7call.2.2.2
    (by decide) (by decide) rfl

/-! ## C8: edges emitted per laid-out marriage -/

theorem marriageMap_isSome_of_mem {ms : List Marriage} {c mid : String}
    (h : mid ∈ spouseMarriageIds ms c) : (marriageMap ms mid).isSome = true := by
  rcases (mem_spouseMarriageIds ms c mid).mp h with ⟨mm, hmm, _, hid⟩
  unfold marriageMap
  rw [List.find?_isSome]
  exact ⟨mm, List.mem_reverse.mpr hmm, by simp [hid]⟩

/-- The target of a descent edge, read off the definition. -/
theorem childEdge_target (ms : List Marriage) (m : Marriage) (cid : String) :
    (childEdge ms m cid).target =
      match (spouseMarriageIds ms cid).find?
          (fun mid2 => (marriageMap ms mid2).isSome) with
      | some cm => "spouses-" ++ cm
      | none => cid := rfl

/-- C8: a non-guard `layoutMarriage` call appends exactly one non-animated
edge from its spouse-pair node to its marriage node, followed by one
animated descent edge per listed child (in input order); a descent edge
targets the child's own spouse-pair node whenever the child is a spouse
of some marriage, and the bare child id otherwise. -/
theorem C8_edges :
    ∀ (ps : List Person) (ms : List Marriage) (fuel : Nat) (mid : String)
        (d x0 : ℚ) (st : LState) (m : Marriage) c n st' w,
      marriageMap ms mid = some m → st.visited.contains mid = false →
      layoutMarriage ps ms (fuel + 1) mid d x0 st = some (c, n, st', w) →
      ∃ centers cur st2 wc,
        layoutChildren ms (layoutMarriage ps ms fuel) d (sortedChildren ps m.children)
            x0 { st with visited := st.visited ++ [mid] } = some (centers, cur, st2, wc)
        ∧ st'.edges = st2.edges ++ unionEdge m :: m.children.map (childEdge ms m)
        ∧ (unionEdge m).source = spouseNodeId m
        ∧ (unionEdge m).target = marriageNodeId m
        ∧ (unionEdge m).animated = false
        ∧ ∀ cid ∈ m.children,
            (childEdge ms m cid).source = marriageNodeId m
            ∧ (childEdge ms m cid).animated = true
            ∧ ((∃ mm ∈ ms, cid ∈ mm.spouses) →
                ∃ cmid ∈ spouseMarriageIds ms cid,
                  (childEdge ms m cid).target = "spouses-" ++ cmid)
            ∧ ((¬ ∃ mm ∈ ms, cid ∈ mm.spouses) →
                (childEdge ms m cid).target = cid) := by
  intro ps ms fuel mid d x0 st m c n st' w hm hv h
  rw [show layoutMarriage ps ms (fuel + 1)
      = layoutMarriageStep ps ms (layoutMarriage ps ms fuel) from rfl] at h
  unfold layoutMarriageStep at h
  simp only [hm] at h
  rw [if_neg (by rw [hv]; exact Bool.false_ne_true)] at h
  cases hr : layoutChildren ms (layoutMarriage ps ms fuel) d
      (sortedChildren ps m.children) x0
      { st with visited := st.visited ++ [mid] } with
  | none => simp [hr] at h
  | some r =>
    obtain ⟨centers, cur, st2, wc⟩ := r
    simp only [hr, Option.some.injEq, Prod.mk.injEq] at h
    obtain ⟨_, _, hst, _⟩ := h
    subst hst
    refine ⟨centers, cur, st2, wc, rfl, rfl, rfl, rfl, rfl, ?_⟩
    intro cid hcid
    refine ⟨rfl, rfl, ?_, ?_⟩
    · intro hex
      obtain ⟨mm, hmm, hcs⟩ := hex
      have hne : mm._id ∈ spouseMarriageIds ms cid :=
        (mem_spouseMarriageIds ms cid mm._id).mpr ⟨mm, hmm, hcs, rfl⟩
      cases hids : spouseMarriageIds ms cid with
      | nil => rw [hids] at hne; exact absurd hne (by simp)
      | cons c0 rest =>
        have hc0 : (fun mid2 => (marriageMap ms mid2).isSome) c0 = true :=
          marriageMap_isSome_of_mem (by rw [hids]; simp)
        refine ⟨c0, by simp [hids], ?_⟩
        rw [childEdge_target, hids, List.find?_cons_of_pos rest hc0]
    · intro hnex
      have hnil : spouseMarriageIds ms cid = [] := by
        cases hids : spouseMarriageIds ms cid with
        | nil => rfl
        | cons c0 rest =>
          exfalso
          have : c0 ∈ spouseMarriageIds ms cid := by rw [hids]; simp
          rcases (mem_spouseMarriageIds ms cid c0).mp this with ⟨mm, hmm, hcs, _⟩
          exact hnex ⟨mm, hmm, hcs⟩
      rw [childEdge_target, hnil]
      rfl

def c8call : LMResult :=
  (layoutMarriage c2persons c2marriages 3 "m1" 1 0 initialState).getD
    (0, 0, initialState, [])

/-- Witness for C8: the edge decomposition applied to the concrete root
call on `m1`. -/
theorem C8_witness :
    ∃ centers cur st2 wc,
      layoutChildren c2marriages (layoutMarriage c2persons c2marriages 2) 1
          (sortedChildren c2persons (⟨"m1", ["p1", "p2"], ["p3"]⟩ : Marriage).children)
          0 { initialState with visited := initialState.visited ++ ["m1"] }
        = some (centers, cur, st2, wc)
      ∧ c8call.2.2.1.edges = st2.edges ++
          unionEdge ⟨"m1", ["p1", "p2"], ["p3"]⟩ ::
            (⟨"m1", ["p1", "p2"], ["p3"]⟩ : Marriage).children.map
              (childEdge c2marriages ⟨"m1", ["p1", "p2"], ["p3"]⟩)
      ∧ (unionEdge ⟨"m1", ["p1", "p2"], ["p3"]⟩).source
          = spouseNodeId ⟨"m1", ["p1", "p2"], ["p3"]⟩
      ∧ (unionEdge ⟨"m1", ["p1", "p2"], ["p3"]⟩).target
          = marriageNodeId ⟨"m1", ["p1", "p2"], ["p3"]⟩
      ∧ (unionEdge ⟨"m1", ["p1", "p2"], ["p3"]⟩).animated = false
      ∧ ∀ cid ∈ (⟨"m1", ["p1", "p2"], ["p3"]⟩ : Marriage).children,
          (childEdge c2marriages ⟨"m1", ["p1", "p2"], ["p3"]⟩ cid).source
              = marriageNodeId ⟨"m1", ["p1", "p2"], ["p3"]⟩
          ∧ (childEdge c2marriages ⟨"m1", ["p1", "p2"], ["p3"]⟩ cid).animated = true
          ∧ ((∃ mm ∈ c2marriages, cid ∈ mm.spouses) →
              ∃ cmid ∈ spouseMarriageIds c2marriages cid,
                (childEdge c2marriages ⟨"m1", ["p1", "p2"], ["p3"]⟩ cid).target
                  = "spouses-" ++ cmid)
          ∧ ((¬ ∃ mm ∈ c2marriages, cid ∈ mm.spouses) →
              (childEdge c2marriages ⟨"m1", ["p1", "p2"], ["p3"]⟩ cid).target = cid) :=
  C8_edges c2persons c2marriages 2 "m1" 1 0 initialState
    ⟨"m1", ["p1", "p2"], ["p3"]⟩ c8call.1 c8call.2.1 c8call.2.2.1 c8call.2.2.2
    (by decide) (by decide) rfl

end FamilyTreeSpec
